import Mathlib

/-!
Verification of the markdownql query front-end and execution engine.

The Rust sources are embedded shallowly:
* `src/tokenizer.rs` — `tokenize` is modelled as a character step function
  (`step`), a scan over the input (`scan`) and the end-of-input handling
  (`finalize`).  Strings are `List Char`; `usize` counters are `Nat`.
* `src/parser.rs` — `parse_query`, `parse_select`, `parse_file_path`,
  `parse_condition`.  The `unimplemented!` macro is modelled by a distinct
  `POut.panicked` outcome, separate from recoverable `ParseError` values.
* `src/executor.rs` — the extraction walks over the mdast document tree.
  Node kinds other than Root / Heading / Paragraph / Text are collapsed into
  a single `other` constructor because the executor treats them all through
  the same catch-all match arm; fields the executor never reads (heading
  depth, positions) are omitted.
-/

/-- Rust `String` / `&str` values are modelled as lists of unicode scalar
values, matching `str::chars`. -/
abbrev Str := List Char

instance {ε α : Type} [DecidableEq ε] [DecidableEq α] : DecidableEq (Except ε α) := fun x y =>
  match x, y with
  | .ok a, .ok b => if h : a = b then .isTrue (by simp [h]) else .isFalse (by simp [h])
  | .error a, .error b => if h : a = b then .isTrue (by simp [h]) else .isFalse (by simp [h])
  | .ok _, .error _ => .isFalse (by simp)
  | .error _, .ok _ => .isFalse (by simp)

/-- Rust `char::is_whitespace`: the Unicode `White_Space` property. -/
def rustIsWhitespace (c : Char) : Bool :=
  (0x09 ≤ c.toNat && c.toNat ≤ 0x0D) || c.toNat = 0x20 || c.toNat = 0x85 ||
  c.toNat = 0xA0 || c.toNat = 0x1680 ||
  (0x2000 ≤ c.toNat && c.toNat ≤ 0x200A) ||
  c.toNat = 0x2028 || c.toNat = 0x2029 || c.toNat = 0x202F ||
  c.toNat = 0x205F || c.toNat = 0x3000

/-- Models Rust `char::to_uppercase` restricted to the mappings that can
influence a comparison against the pure-ASCII keyword strings "SELECT",
"FROM", "WHERE", "*": ASCII `a`-`z` and `ſ` (U+017F, which uppercases to
`S`).  Every other character is kept fixed, which preserves the outcome of
equality tests against those ASCII strings (no other Unicode uppercase
mapping produces a character sequence occurring in them). -/
def toUpperChar (c : Char) : Char :=
  if 'a' ≤ c ∧ c ≤ 'z' then Char.ofNat (c.toNat - 32)
  else if c = 'ſ' then 'S'
  else c

/-- Rust `str::to_uppercase` on the lexeme buffer. -/
def toUpperStr (s : Str) : Str := s.map toUpperChar

/-- Rust `String::len`: the UTF-8 byte length of the buffer. -/
def utf8Len (s : Str) : Nat := s.foldl (fun n c => n + c.utf8Size) 0

/-- `Keyword` from `tokenizer.rs`. -/
inductive Keyword
  | SELECT
  | FROM
  | WHERE
  | ALL
deriving DecidableEq, Repr

/-- `Token` from `tokenizer.rs`; each variant carries line and column. -/
inductive Token
  | keyword (k : Keyword) (line column : Nat)
  | identifier (s : Str) (line column : Nat)
  | punctuation (c : Char) (line column : Nat)
  | stringLiteral (s : Str) (line column : Nat)
deriving DecidableEq, Repr

/-- `TokenizationError` from `tokenizer.rs`. -/
inductive TokenizationError
  | unexpectedCharacter (character : Char) (line column : Nat)
  | unexpectedEscapeSequence (character : Char) (line column : Nat)
  | unterminatedStringLiteral (line column : Nat)
deriving DecidableEq, Repr

/-- The mutable locals of the `tokenize` loop in `tokenizer.rs`. -/
structure TState where
  tokens : List Token
  buffer : Str
  inString : Bool
  escape : Bool
  line : Nat
  column : Nat
deriving DecidableEq, Repr

/-- The keyword match performed when whitespace flushes the buffer
(`tokenizer.rs` lines 122-128): the buffer is uppercased and compared
against "SELECT", "FROM", "WHERE" and "*"; anything else becomes an
`Identifier`. -/
def flushToken (b : Str) (line column : Nat) : Token :=
  if toUpperStr b = "SELECT".data then .keyword .SELECT line column
  else if toUpperStr b = "FROM".data then .keyword .FROM line column
  else if toUpperStr b = "WHERE".data then .keyword .WHERE line column
  else if toUpperStr b = "*".data then .keyword .ALL line column
  else .identifier b line column

/-- One iteration of the `for c in input.chars()` loop of `tokenize`.
The position update comes first (`\n` increments the line and resets the
column to 1, every other character increments the column), then the
escape / in-string / default branches.  Token columns are computed as
`column - buffer.len()` exactly as in the source; `Nat` subtraction
truncates at zero where the Rust `usize` subtraction would overflow. -/
def step (st : TState) (c : Char) : Except TokenizationError TState :=
  let line := if c = '\n' then st.line + 1 else st.line
  let column := if c = '\n' then 1 else st.column + 1
  if st.escape then
    if c = 'n' then
      .ok { st with buffer := st.buffer ++ ['\n'], escape := false, line := line, column := column }
    else if c = 't' then
      .ok { st with buffer := st.buffer ++ ['\t'], escape := false, line := line, column := column }
    else if c = '\\' then
      .ok { st with buffer := st.buffer ++ ['\\'], escape := false, line := line, column := column }
    else if c = '"' then
      .ok { st with buffer := st.buffer ++ ['"'], escape := false, line := line, column := column }
    else
      .error (.unexpectedEscapeSequence c line column)
  else if st.inString then
    if c = '\\' then
      .ok { st with escape := true, line := line, column := column }
    else if c = '"' then
      .ok { st with
              tokens := st.tokens ++ [Token.stringLiteral st.buffer line (column - utf8Len st.buffer)],
              buffer := [], inString := false, line := line, column := column }
    else
      .ok { st with buffer := st.buffer ++ [c], line := line, column := column }
  else if rustIsWhitespace c then
    if st.buffer.isEmpty then
      .ok { st with line := line, column := column }
    else
      .ok { st with
              tokens := st.tokens ++ [flushToken st.buffer line (column - utf8Len st.buffer)],
              buffer := [], line := line, column := column }
  else if c = '"' then
    .ok { st with inString := true, line := line, column := column }
  else if c = ',' ∨ c = '.' then
    .ok { st with
            tokens := st.tokens ++
              (if st.buffer.isEmpty then []
               else [Token.identifier st.buffer line (column - utf8Len st.buffer)]) ++
              [Token.punctuation c line column],
            buffer := [], line := line, column := column }
  else
    .ok { st with buffer := st.buffer ++ [c], line := line, column := column }

/-- The character loop of `tokenize`. -/
def scan (st : TState) : Str → Except TokenizationError TState
  | [] => .ok st
  | c :: rest =>
    match step st c with
    | .ok st' => scan st' rest
    | .error e => .error e

/-- End-of-input handling of `tokenize` (lines 153-165): a pending escape
fails, a non-empty buffer fails when still inside a string and is otherwise
flushed as a final `Identifier`.  Note that the in-string check is nested
under the non-empty-buffer check, exactly as in the source. -/
def finalize (st : TState) : Except TokenizationError (List Token) :=
  if st.escape then
    .error (.unterminatedStringLiteral st.line st.column)
  else if st.buffer.isEmpty then
    .ok st.tokens
  else if st.inString then
    .error (.unterminatedStringLiteral st.line st.column)
  else
    .ok (st.tokens ++ [Token.identifier st.buffer st.line (st.column - utf8Len st.buffer)])

/-- The initial state of the `tokenize` locals: empty accumulator, default
mode, line 1, column 0. -/
def initState : TState :=
  { tokens := [], buffer := [], inString := false, escape := false, line := 1, column := 0 }

/-- `tokenize` from `tokenizer.rs`. -/
def tokenize (input : Str) : Except TokenizationError (List Token) :=
  match scan initState input with
  | .ok st => finalize st
  | .error e => .error e

/-- Sanity check: the repository's own tokenizer unit test. -/
theorem tokenize_unit_check :
    tokenize "SELECT * FROM \"examples/posts/hello-world.md\"".data =
      .ok [Token.keyword .SELECT 1 1, Token.keyword .ALL 1 8, Token.keyword .FROM 1 10,
           Token.stringLiteral "examples/posts/hello-world.md".data 1 16] := by decide

/-- `ParseError` from `parser.rs`. -/
inductive ParseError
  | unexpectedToken (t : Token)
  | unexpectedEndOfInput
deriving DecidableEq, Repr

/-- `Element` from `parser.rs`. -/
inductive Element
  | headings
  | paragraphs
  | text (pattern : Str)
  | all
deriving DecidableEq, Repr

/-- `Query` from `parser.rs`. -/
structure Query where
  elements : List Element
  file_path : Str
  condition : Option Str
deriving DecidableEq, Repr

/-- Outcome of a parser call.  Rust distinguishes returning
`Err(ParseError)` from aborting through the `unimplemented!` macro; the
latter is modelled by the separate `panicked` outcome. -/
inductive POut (α : Type)
  | ok (a : α)
  | perr (e : ParseError)
  | panicked (msg : String)
deriving DecidableEq, Repr

/-- `parse_file_path` from `parser.rs`: exactly one token, which must be a
string literal. -/
def parse_file_path : List Token → POut (Str × List Token)
  | .stringLiteral s _ _ :: rest => .ok (s, rest)
  | tok :: _ => .perr (.unexpectedToken tok)
  | [] => .perr .unexpectedEndOfInput

/-- `parse_condition` from `parser.rs`: `unimplemented!("not yet supported")`
— an unconditional abort, never a recoverable `ParseError`. -/
def parse_condition (_ts : List Token) : POut (Option Str × List Token) :=
  .panicked "not yet supported"

mutual

/-- `parse_select` from `parser.rs` (lines 61-98): consume one selector
token, then `selCont` performs the trailing-comma peek.  End of input ends
the loop with the accumulated elements; the accumulated vector is modelled
by consing onto the recursive result, which yields the same sequence. -/
def parse_select : List Token → POut (List Element × List Token)
  | [] => .ok ([], [])
  | .keyword .ALL _ _ :: rest => selCont .all rest
  | .identifier s _ _ :: rest =>
    if s = "headings".data then selCont .headings rest
    else if s = "paragraphs".data then selCont .paragraphs rest
    else if s = "text".data then
      match rest with
      | .stringLiteral lit _ _ :: rest2 => selCont (.text lit) rest2
      | _ => .perr .unexpectedEndOfInput
    else selCont (.text s) rest
  | tok :: _ => .perr (.unexpectedToken tok)
termination_by ts => (ts.length, 0)

/-- The peek after each selector in `parse_select` (lines 86-94): a `,`
punctuation is consumed and the loop continues; anything else (or end of
input) stops the loop, leaving the unconsumed tokens for the top-level
dispatcher. -/
def selCont (e : Element) : List Token → POut (List Element × List Token)
  | .punctuation ',' _ _ :: rest2 =>
    match parse_select rest2 with
    | .ok (es, r) => .ok (e :: es, r)
    | .perr er => .perr er
    | .panicked m => .panicked m
  | [] => .ok ([e], [])
  | rest => .ok ([e], rest)
termination_by ts => (ts.length, 1)

end

/-- Joint auxiliary fact: on success, `parse_select` and `selCont` consume
a prefix of their input and return the remaining suffix. -/
theorem select_consumes_main :
    ∀ n ts, ts.length ≤ n →
      ((∀ es r, parse_select ts = .ok (es, r) → ∃ pre, ts = pre ++ r) ∧
       (∀ e es r, selCont e ts = .ok (es, r) → ∃ pre, ts = pre ++ r)) := by
  intro n
  induction n with
  | zero =>
    intro ts hlen
    have hts : ts = [] := by
      cases ts with
      | nil => rfl
      | cons a l => simp at hlen
    subst hts
    constructor
    · intro es r h
      rw [parse_select.eq_def] at h
      simp only [POut.ok.injEq, Prod.mk.injEq] at h
      exact ⟨[], by simp [h.2.symm]⟩
    · intro e es r h
      rw [selCont.eq_def] at h
      simp only [POut.ok.injEq, Prod.mk.injEq] at h
      exact ⟨[], by simp [h.2.symm]⟩
  | succ n ih =>
    intro ts hlen
    constructor
    · intro es r h
      rw [parse_select.eq_def] at h
      split at h
      · simp only [POut.ok.injEq, Prod.mk.injEq] at h
        exact ⟨[], by simp [h.2.symm]⟩
      · rename_i line column rest
        obtain ⟨pre, hpre⟩ := (ih rest (by simp at hlen; omega)).2 _ _ _ h
        exact ⟨Token.keyword .ALL line column :: pre, by simp [hpre]⟩
      · rename_i s line column rest
        split at h
        · obtain ⟨pre, hpre⟩ := (ih rest (by simp at hlen; omega)).2 _ _ _ h
          exact ⟨Token.identifier s line column :: pre, by simp [hpre]⟩
        · split at h
          · obtain ⟨pre, hpre⟩ := (ih rest (by simp at hlen; omega)).2 _ _ _ h
            exact ⟨Token.identifier s line column :: pre, by simp [hpre]⟩
          · split at h
            · split at h
              · rename_i lit l2 c2 rest2
                obtain ⟨pre, hpre⟩ :=
                  (ih rest2 (by simp at hlen; omega)).2 _ _ _ h
                exact ⟨Token.identifier s line column ::
                         Token.stringLiteral lit l2 c2 :: pre, by simp [hpre]⟩
              · exact absurd h (by simp)
            · obtain ⟨pre, hpre⟩ := (ih rest (by simp at hlen; omega)).2 _ _ _ h
              exact ⟨Token.identifier s line column :: pre, by simp [hpre]⟩
      · exact absurd h (by simp)
    · intro e es r h
      rw [selCont.eq_def] at h
      split at h
      · rename_i line column rest2
        split at h
        · rename_i es0 r0 heq
          simp only [POut.ok.injEq, Prod.mk.injEq] at h
          obtain ⟨pre, hpre⟩ :=
            (ih rest2 (by simp at hlen; omega)).1 _ _ heq
          exact ⟨Token.punctuation ',' line column :: pre, by simp [hpre, ← h.2]⟩
        · exact absurd h (by simp)
        · exact absurd h (by simp)
      · simp only [POut.ok.injEq, Prod.mk.injEq] at h
        exact ⟨[], by simp [h.2.symm]⟩
      · simp only [POut.ok.injEq, Prod.mk.injEq] at h
        exact ⟨[], by simp [h.2.symm]⟩

/-- On success, `parse_select` consumes a prefix of its input and returns
the remaining suffix. -/
theorem parse_select_consumes (ts : List Token) (es : List Element) (r : List Token)
    (h : parse_select ts = .ok (es, r)) : ∃ pre, ts = pre ++ r :=
  (select_consumes_main ts.length ts le_rfl).1 es r h

/-- On success, `parse_file_path` consumes exactly the leading string
literal and returns the rest. -/
theorem parse_file_path_consumes (ts : List Token) (p : Str) (r : List Token)
    (h : parse_file_path ts = .ok (p, r)) : ∃ pre, ts = pre ++ r := by
  match ts, h with
  | .stringLiteral s l c :: rest, h =>
    simp only [parse_file_path, POut.ok.injEq, Prod.mk.injEq] at h
    exact ⟨[.stringLiteral s l c], by simp [h.2.symm]⟩

/-- `parse_condition` never returns successfully. -/
theorem parse_condition_never_ok (ts : List Token) (x : Option Str × List Token) :
    ¬ parse_condition ts = .ok x := by
  simp [parse_condition]

/-- The top-level `while let` loop of `parse_query` (lines 36-52), with the
mutable locals `elements`, `file_path`, `condition` as accumulator
arguments `es`, `fp`, `cond`. -/
def parse_query_loop : List Token → List Element → Str → Option Str → POut Query
  | [], es, fp, cond => .ok ⟨es, fp, cond⟩
  | .keyword .SELECT _ _ :: rest, es, fp, cond =>
    match h : parse_select rest with
    | .ok (newEs, rest') => parse_query_loop rest' (es ++ newEs) fp cond
    | .perr e => .perr e
    | .panicked m => .panicked m
  | .keyword .FROM _ _ :: rest, es, _, cond =>
    match h : parse_file_path rest with
    | .ok (p, rest') => parse_query_loop rest' es p cond
    | .perr e => .perr e
    | .panicked m => .panicked m
  | .keyword .WHERE _ _ :: rest, es, fp, _ =>
    match h : parse_condition rest with
    | .ok (c, rest') => parse_query_loop rest' es fp c
    | .perr e => .perr e
    | .panicked m => .panicked m
  | .keyword .ALL _ _ :: rest, es, fp, cond => parse_query_loop rest es fp cond
  | tok :: _, _, _, _ => .perr (.unexpectedToken tok)
termination_by ts _ _ _ => ts.length
decreasing_by
  · obtain ⟨pre, hp⟩ := parse_select_consumes _ _ _ h
    subst hp; simp [List.length_append]; omega
  · obtain ⟨pre, hp⟩ := parse_file_path_consumes _ _ _ h
    subst hp; simp [List.length_append]; omega
  · exact absurd h (parse_condition_never_ok _ _)
  · simp

/-- `parse_query` from `parser.rs`. -/
def parse_query (tokens : List Token) : POut Query :=
  parse_query_loop tokens [] [] none

/-- Unfolding lemma: the loop on an exhausted iterator returns the query. -/
theorem parse_query_loop_nil (es : List Element) (fp : Str) (cond : Option Str) :
    parse_query_loop [] es fp cond = .ok ⟨es, fp, cond⟩ := by
  rw [parse_query_loop.eq_def]

/-- Unfolding lemma: the `SELECT` arm extends `elements` with the selectors
parsed by `parse_select` and continues on the tokens it left. -/
theorem parse_query_loop_select (line column : Nat) (rest : List Token) (es : List Element)
    (fp : Str) (cond : Option Str) (newEs : List Element) (rest' : List Token)
    (h : parse_select rest = .ok (newEs, rest')) :
    parse_query_loop (.keyword .SELECT line column :: rest) es fp cond =
      parse_query_loop rest' (es ++ newEs) fp cond := by
  conv_lhs => rw [parse_query_loop.eq_def]
  simp only []
  split
  · rename_i newEs2 rest2 h2
    rw [h] at h2
    simp only [POut.ok.injEq, Prod.mk.injEq] at h2
    rw [h2.1, h2.2]
  · rename_i e h2
    rw [h] at h2
    exact absurd h2 (by simp)
  · rename_i m h2
    rw [h] at h2
    exact absurd h2 (by simp)

/-- Unfolding lemma: the `FROM` arm overwrites `file_path` with the literal
returned by `parse_file_path` and continues on the tokens it left. -/
theorem parse_query_loop_from (line column : Nat) (rest : List Token) (es : List Element)
    (fp : Str) (cond : Option Str) (p : Str) (rest' : List Token)
    (h : parse_file_path rest = .ok (p, rest')) :
    parse_query_loop (.keyword .FROM line column :: rest) es fp cond =
      parse_query_loop rest' es p cond := by
  conv_lhs => rw [parse_query_loop.eq_def]
  simp only []
  split
  · rename_i p2 rest2 h2
    rw [h] at h2
    simp only [POut.ok.injEq, Prod.mk.injEq] at h2
    rw [h2.1, h2.2]
  · rename_i e h2
    rw [h] at h2
    exact absurd h2 (by simp)
  · rename_i m h2
    rw [h] at h2
    exact absurd h2 (by simp)

/-- Unfolding lemma: the `FROM` arm fails when `parse_file_path` fails. -/
theorem parse_query_loop_from_perr (line column : Nat) (rest : List Token) (es : List Element)
    (fp : Str) (cond : Option Str) (e : ParseError)
    (h : parse_file_path rest = .perr e) :
    parse_query_loop (.keyword .FROM line column :: rest) es fp cond = .perr e := by
  conv_lhs => rw [parse_query_loop.eq_def]
  simp only []
  split
  · rename_i p2 rest2 h2
    rw [h] at h2
    exact absurd h2 (by simp)
  · rename_i e2 h2
    rw [h] at h2
    simp only [POut.perr.injEq] at h2
    rw [h2]
  · rename_i m h2
    rw [h] at h2
    exact absurd h2 (by simp)

/-- Unfolding lemma: the `WHERE` arm aborts through `parse_condition`'s
`unimplemented!`, regardless of the remaining tokens or the accumulators. -/
theorem parse_query_loop_where (line column : Nat) (rest : List Token) (es : List Element)
    (fp : Str) (cond : Option Str) :
    parse_query_loop (.keyword .WHERE line column :: rest) es fp cond =
      .panicked "not yet supported" := by
  conv_lhs => rw [parse_query_loop.eq_def]
  simp only []
  split
  · rename_i c2 rest2 h2
    exact absurd h2 (by simp [parse_condition])
  · rename_i e2 h2
    exact absurd h2 (by simp [parse_condition])
  · rename_i m h2
    simp only [parse_condition, POut.panicked.injEq] at h2
    rw [h2]

/-- Unfolding lemma: a leading `ALL` keyword at top level is a no-op. -/
theorem parse_query_loop_all (line column : Nat) (rest : List Token) (es : List Element)
    (fp : Str) (cond : Option Str) :
    parse_query_loop (.keyword .ALL line column :: rest) es fp cond =
      parse_query_loop rest es fp cond := by
  conv_lhs => rw [parse_query_loop.eq_def]

/-- Sanity check: the repository's own parser unit test. -/
theorem parse_query_unit_check :
    parse_query [Token.keyword .SELECT 1 1, Token.keyword .ALL 1 8, Token.keyword .FROM 1 10,
                 Token.stringLiteral "examples/posts/hello-world.md".data 1 16] =
      .ok ⟨[Element.all], "examples/posts/hello-world.md".data, none⟩ := by
  have h1 : parse_select [Token.keyword .ALL 1 8, Token.keyword .FROM 1 10,
      Token.stringLiteral "examples/posts/hello-world.md".data 1 16] =
      .ok ([Element.all], [Token.keyword .FROM 1 10,
        Token.stringLiteral "examples/posts/hello-world.md".data 1 16]) := by
    simp [parse_select, selCont]
  have h2 : parse_file_path [Token.stringLiteral "examples/posts/hello-world.md".data 1 16] =
      .ok ("examples/posts/hello-world.md".data, []) := by
    simp [parse_file_path]
  rw [parse_query, parse_query_loop_select _ _ _ _ _ _ _ _ h1,
      parse_query_loop_from _ _ _ _ _ _ _ _ h2, parse_query_loop_nil]
  rfl

/-- Rust `str::contains(&str)` as used on text-node values: `needle` occurs
as a contiguous (case-sensitive) substring of the haystack. -/
def strContains : Str → Str → Bool
  | [], needle => needle.isEmpty
  | h :: t, needle => needle.isPrefixOf (h :: t) || strContains t needle

/-- The mdast document tree consumed by `executor.rs` (provided by the
external `markdown` crate).  Only the `Root`, `Heading`, `Paragraph` and
`Text` kinds are distinguished by the executor; every other node kind is
handled by the same catch-all arms and is collapsed into `other`.  Fields
the executor never reads (heading depth, positions) are omitted. -/
inductive Node
  | root (children : List Node)
  | heading (children : List Node)
  | paragraph (children : List Node)
  | text (value : Str)
  | other (children : List Node)

/-- `heading_to_string` from `executor.rs` (lines 132-140): concatenate the
values of the direct `Text` children; everything else is skipped. -/
def heading_to_string : List Node → Str
  | [] => []
  | .text v :: cs => v ++ heading_to_string cs
  | _ :: cs => heading_to_string cs

/-- `paragraph_to_string` from `executor.rs` (lines 142-150): identical to
`heading_to_string`, applied to a paragraph's children. -/
def paragraph_to_string : List Node → Str
  | [] => []
  | .text v :: cs => v ++ paragraph_to_string cs
  | _ :: cs => paragraph_to_string cs

mutual

/-- `extract_headings_recursive` from `executor.rs` (lines 76-88): a
`Heading` node contributes its flattened text, only `Root` nodes are
recursed into, everything else is ignored.  The `&mut Vec` accumulator is
modelled by returning the pushed strings in order. -/
def extract_headings_go : Node → List Str
  | .heading cs => [heading_to_string cs]
  | .root cs => extract_headings_list cs
  | _ => []

/-- The `for child in &root.children` loop of `extract_headings_recursive`. -/
def extract_headings_list : List Node → List Str
  | [] => []
  | n :: ns => extract_headings_go n ++ extract_headings_list ns

end

/-- `extract_headings` from `executor.rs` (lines 70-74). -/
def extract_headings (root : Node) : List Str := extract_headings_go root

mutual

/-- `extract_paragraphs_recursive` from `executor.rs` (lines 96-108). -/
def extract_paragraphs_go : Node → List Str
  | .paragraph cs => [paragraph_to_string cs]
  | .root cs => extract_paragraphs_list cs
  | _ => []

/-- The children loop of `extract_paragraphs_recursive`. -/
def extract_paragraphs_list : List Node → List Str
  | [] => []
  | n :: ns => extract_paragraphs_go n ++ extract_paragraphs_list ns

end

/-- `extract_paragraphs` from `executor.rs` (lines 90-94). -/
def extract_paragraphs (root : Node) : List Str := extract_paragraphs_go root

mutual

/-- `extract_matching_text_recursive` from `executor.rs` (lines 116-130):
a `Text` node whose value contains the pattern contributes its whole
value, only `Root` nodes are recursed into, everything else is ignored. -/
def extract_matching_text_go : Node → Str → List Str
  | .text v, pat => if strContains v pat then [v] else []
  | .root cs, pat => extract_matching_text_list cs pat
  | _, _ => []

/-- The children loop of `extract_matching_text_recursive`. -/
def extract_matching_text_list : List Node → Str → List Str
  | [], _ => []
  | n :: ns, pat => extract_matching_text_go n pat ++ extract_matching_text_list ns pat

end

/-- `extract_matching_text` from `executor.rs` (lines 110-114). -/
def extract_matching_text (root : Node) (pat : Str) : List Str :=
  extract_matching_text_go root pat

/-- `QueryResult` from `executor.rs`. -/
structure QueryResult where
  headings : List Str
  paragraphs : List Str
  matching_text : List Str
deriving DecidableEq, Repr

/-- One iteration of the `for element in &query.elements` loop of
`execute_query` (`executor.rs` lines 45-61), extending the three
accumulator vectors. -/
def processElement (ast : Node) (acc : QueryResult) : Element → QueryResult
  | .headings => { acc with headings := acc.headings ++ extract_headings ast }
  | .paragraphs => { acc with paragraphs := acc.paragraphs ++ extract_paragraphs ast }
  | .text t => { acc with matching_text := acc.matching_text ++ extract_matching_text ast t }
  | .all => { acc with
                headings := acc.headings ++ extract_headings ast,
                paragraphs := acc.paragraphs ++ extract_paragraphs ast }

/-- The element loop of `execute_query` over the whole element list.  File
loading and markdown parsing (lines 31-39) are external I/O collaborators;
the executor core is modelled from the point where the document tree `ast`
is available. -/
def run_elements (ast : Node) : List Element → QueryResult → QueryResult
  | [], acc => acc
  | e :: es, acc => run_elements ast es (processElement ast acc e)

/-- `execute_query` from the document tree down: the three accumulators
start empty and are filled by the element loop. -/
def execute_on_ast (q : Query) (ast : Node) : QueryResult :=
  run_elements ast q.elements ⟨[], [], []⟩

/-- Sanity check: the spec's end-to-end scenario on the document tree of
`# Title` followed by one paragraph. -/
theorem execute_end_to_end_check :
    execute_on_ast ⟨[Element.all], "doc.md".data, none⟩
      (.root [.heading [.text "Title".data], .paragraph [.text "Some text here.".data]]) =
      ⟨["Title".data], ["Some text here.".data], []⟩ := by decide

mutual

/-- Modelled from the spec for comparison (refinement reference for the
text-extraction traversal): the values of every `Text` node reachable from
the root through `Root`-kind containers only, in pre-order depth-first
order, without any pattern filtering. -/
def specRootOnlyTexts : Node → List Str
  | .text v => [v]
  | .root cs => specRootOnlyTextsL cs
  | _ => []

/-- Children traversal of `specRootOnlyTexts`. -/
def specRootOnlyTextsL : List Node → List Str
  | [] => []
  | n :: ns => specRootOnlyTexts n ++ specRootOnlyTextsL ns

end

mutual

theorem emt_go_filter : ∀ (n : Node) (pat : Str),
    extract_matching_text_go n pat = (specRootOnlyTexts n).filter (fun v => strContains v pat)
  | .text v, pat => by
    by_cases h : strContains v pat = true <;>
      simp [extract_matching_text_go, specRootOnlyTexts, List.filter, h]
  | .root cs, pat => by
    simp [extract_matching_text_go, specRootOnlyTexts, emt_list_filter cs pat]
  | .heading cs, pat => by
    simp [extract_matching_text_go, specRootOnlyTexts]
  | .paragraph cs, pat => by
    simp [extract_matching_text_go, specRootOnlyTexts]
  | .other cs, pat => by
    simp [extract_matching_text_go, specRootOnlyTexts]

theorem emt_list_filter : ∀ (ns : List Node) (pat : Str),
    extract_matching_text_list ns pat = (specRootOnlyTextsL ns).filter (fun v => strContains v pat)
  | [], pat => by simp [extract_matching_text_list, specRootOnlyTextsL]
  | n :: ns, pat => by
    simp [extract_matching_text_list, specRootOnlyTextsL, List.filter_append,
          emt_go_filter n pat, emt_list_filter ns pat]

end

/-- C1 counterexample: the document tree has text nodes "hello world"
(inside a heading) and "goodbye" (directly under the root); "hello world"
contains the pattern "wor", yet `Text("wor")` extraction collects nothing,
because the traversal never descends into the heading. -/
theorem text_in_heading_not_collected :
    extract_matching_text
        (.root [.heading [.text "hello world".data], .text "goodbye".data]) "wor".data = [] ∧
    strContains "hello world".data "wor".data = true := by decide

/-- C1 (amended): `Text(p)` extraction collects exactly the `Text` nodes
reachable from the root through `Root`-kind containers only — not text
nested inside headings, paragraphs or other containers — whose value
contains `p` as a case-sensitive substring, each whole value in pre-order
depth-first order. -/
theorem extract_matching_text_root_only (n : Node) (pat : Str) :
    extract_matching_text n pat = (specRootOnlyTexts n).filter (fun v => strContains v pat) :=
  emt_go_filter n pat

/-- C3: the code evaluated at the failing input: an input that ends right
after an opening quote (`in_string` true, empty buffer) tokenizes to
`Ok([])` instead of an `UnterminatedStringLiteral` error, while the same
unterminated string with one buffered character does fail. -/
theorem tokenize_lone_open_quote_ok :
    tokenize ['"'] = .ok [] ∧
    tokenize ['"', 'a'] = .error (.unterminatedStringLiteral 1 2) := by decide

/-- C5 counterexample: a bare `*` accumulated in the buffer and flushed by
whitespace is emitted as `Keyword(ALL)`, not as an `Identifier`. -/
theorem star_flushed_is_keyword_all :
    tokenize ['*', ' '] = .ok [.keyword .ALL 1 1] ∧
    Token.keyword .ALL 1 1 ≠ Token.identifier ['*'] 1 1 := by decide

/-- C5 (amended): keyword matching on the upper-cased buffer maps exactly
SELECT, FROM, WHERE and `*` (the latter to keyword ALL); any buffer whose
upper-casing is none of these four strings is flushed as an `Identifier`.
In particular a whitespace-flushed bare `*` becomes `Keyword(ALL)`. -/
theorem flush_keyword_match (b : Str) (line column : Nat)
    (h1 : toUpperStr b ≠ "SELECT".data) (h2 : toUpperStr b ≠ "FROM".data)
    (h3 : toUpperStr b ≠ "WHERE".data) (h4 : toUpperStr b ≠ "*".data) :
    flushToken b line column = .identifier b line column ∧
    flushToken ['*'] line column = .keyword .ALL line column ∧
    tokenize ['*', ' '] = .ok [.keyword .ALL 1 1] := by
  refine ⟨?_, ?_, by decide⟩
  · simp [flushToken, h1, h2, h3, h4]
  · rw [flushToken, if_neg (by decide), if_neg (by decide), if_neg (by decide),
        if_pos (by decide)]

/-- Witness for the amended C5 at the concrete buffer "foo". -/
theorem flush_keyword_match_witness :
    flushToken "foo".data 1 1 = .identifier "foo".data 1 1 ∧
    flushToken ['*'] 1 1 = .keyword .ALL 1 1 ∧
    tokenize ['*', ' '] = .ok [.keyword .ALL 1 1] :=
  flush_keyword_match "foo".data 1 1 (by decide) (by decide) (by decide) (by decide)

/-- C6: whenever the top-level loop of `parse_query` reaches a `WHERE`
keyword, the whole call aborts with the fatal "not yet supported" panic of
`parse_condition`, never a recoverable `ParseError`, regardless of the
remaining tokens and accumulated state. -/
theorem where_keyword_panics (line column : Nat) (rest : List Token) (es : List Element)
    (fp : Str) (cond : Option Str) :
    parse_query_loop (.keyword .WHERE line column :: rest) es fp cond =
      .panicked "not yet supported" ∧
    parse_condition rest = .panicked "not yet supported" :=
  ⟨parse_query_loop_where line column rest es fp cond, rfl⟩

/-- C7: processing `Element::All` appends exactly the `Headings` extraction
to the headings accumulator and exactly the `Paragraphs` extraction to the
paragraphs accumulator — the same result as running the two extractions
separately — and never touches `matching_text`. -/
theorem all_extracts_headings_and_paragraphs (ast : Node) (acc : QueryResult) :
    processElement ast acc .all =
      processElement ast (processElement ast acc .headings) .paragraphs ∧
    (processElement ast acc .all).headings = acc.headings ++ extract_headings ast ∧
    (processElement ast acc .all).paragraphs = acc.paragraphs ++ extract_paragraphs ast ∧
    (processElement ast acc .all).matching_text = acc.matching_text :=
  ⟨rfl, rfl, rfl, rfl⟩

/-- C8 counterexample: in `"a\nb"` the identifier `a` lies on line 1 at
column 1, but its token reports line 2 and column 0 (the flush happens
while processing the newline, after the line counter was incremented and
the column counter was reset). -/
theorem token_after_newline_position :
    tokenize ['a', '\n', 'b'] = .ok [.identifier ['a'] 2 0, .identifier ['b'] 2 1] ∧
    Token.identifier ['a'] 2 0 ≠ Token.identifier ['a'] 1 1 := by decide

/-- Result classifier for C10: `true` unless the result is an
`UnexpectedCharacter` error. -/
def isNotUnexpectedChar : Except TokenizationError (List Token) → Bool
  | .error (.unexpectedCharacter _ _ _) => false
  | _ => true

/-- Any error produced by `step` is an escape-sequence error. -/
theorem step_error_shape (st : TState) (c : Char) (e : TokenizationError)
    (h : step st c = .error e) : ∃ l col, e = .unexpectedEscapeSequence c l col := by
  simp only [step] at h
  split_ifs at h
  all_goals try exact Except.noConfusion h
  all_goals (injection h with h; exact ⟨_, _, h.symm⟩)

/-- Any error produced by `scan` is an escape-sequence error. -/
theorem scan_error_shape :
    ∀ (cs : Str) (st : TState) (e : TokenizationError), scan st cs = .error e →
      ∃ ch l col, e = .unexpectedEscapeSequence ch l col := by
  intro cs
  induction cs with
  | nil => intro st e h; simp [scan] at h
  | cons c rest ih =>
    intro st e h
    rw [scan] at h
    cases hs : step st c with
    | ok st' => rw [hs] at h; exact ih st' e h
    | error e' =>
      rw [hs] at h
      simp only [Except.error.injEq] at h
      obtain ⟨l, col, he⟩ := step_error_shape st c e' hs
      exact ⟨c, l, col, by rw [← h, he]⟩

/-- Any error produced by `finalize` is an unterminated-string error. -/
theorem finalize_error_shape (st : TState) (e : TokenizationError)
    (h : finalize st = .error e) : ∃ l col, e = .unterminatedStringLiteral l col := by
  simp only [finalize] at h
  split_ifs at h
  all_goals try exact Except.noConfusion h
  all_goals (injection h with h; exact ⟨_, _, h.symm⟩)

/-- C10: `tokenize` never returns the `UnexpectedCharacter` variant: every
result is `Ok`, an `UnexpectedEscapeSequence`, or an
`UnterminatedStringLiteral`, because in default mode every non-whitespace,
non-quote, non-punctuation character is buffered rather than rejected. -/
theorem tokenize_never_unexpected_character (input : Str) :
    isNotUnexpectedChar (tokenize input) = true := by
  unfold tokenize
  cases hs : scan initState input with
  | ok st =>
    show isNotUnexpectedChar (finalize st) = true
    cases hf : finalize st with
    | ok ts => rfl
    | error e =>
      obtain ⟨l, col, he⟩ := finalize_error_shape st e hf
      rw [he]; rfl
  | error e =>
    obtain ⟨ch, l, col, he⟩ := scan_error_shape input initState e hs
    rw [he]; rfl

/-- C9: in select-list parsing, an `Identifier("text")` selector must be
immediately followed by a `StringLiteral`, in which case
`Element::Text(literal)` is pushed (it heads the returned element list) and
the selector loop continues; if the next token is missing or of any other
kind, the parse fails with `UnexpectedEndOfInput`, not `UnexpectedToken`. -/
theorem text_selector_requires_string_literal (line column : Nat) (rest : List Token) :
    (parse_select (.identifier "text".data line column :: rest) =
      match rest with
      | .stringLiteral lit _ _ :: rest2 => selCont (.text lit) rest2
      | _ => .perr .unexpectedEndOfInput) ∧
    (∀ e ts es r, selCont e ts = .ok (es, r) → ∃ es2, es = e :: es2) := by
  constructor
  · conv_lhs => rw [parse_select.eq_def]
    simp only []
    simp
  · intro e ts es r h
    rw [selCont.eq_def] at h
    split at h
    · split at h
      · rename_i es0 r0 heq
        simp only [POut.ok.injEq, Prod.mk.injEq] at h
        exact ⟨es0, h.1.symm⟩
      · exact absurd h (by simp)
      · exact absurd h (by simp)
    · simp only [POut.ok.injEq, Prod.mk.injEq] at h
      exact ⟨[], h.1.symm⟩
    · simp only [POut.ok.injEq, Prod.mk.injEq] at h
      exact ⟨[], h.1.symm⟩

/-- Witness for C9 at concrete inputs: with no following token the parse
fails with `UnexpectedEndOfInput`; with a following string literal the
pushed element heads the result. -/
theorem text_selector_requires_string_literal_witness :
    parse_select [Token.identifier "text".data 1 8] = .perr .unexpectedEndOfInput ∧
    (∃ es2, [Element.text "pat".data] = Element.text "pat".data :: es2) := by
  have h := text_selector_requires_string_literal 1 8 []
  refine ⟨h.1, h.2 (Element.text "pat".data) [] [Element.text "pat".data] [] ?_⟩
  rw [selCont.eq_def]

/-- Characters that, in default mode, are accumulated into the buffer: not
whitespace, not a quote, not `,`, not `.`. -/
def identChar (c : Char) : Bool :=
  !rustIsWhitespace c && c != '"' && c != ',' && c != '.'

/-- Characters a rendered string-literal body may contain verbatim:
anything except the closing quote and the escape character. -/
def stringChar (c : Char) : Bool := c != '"' && c != '\\'

theorem identChar_spec (c : Char) (h : identChar c = true) :
    rustIsWhitespace c = false ∧ c ≠ '"' ∧ c ≠ ',' ∧ c ≠ '.' ∧ c ≠ '\n' := by
  simp only [identChar, Bool.and_eq_true, Bool.not_eq_true', bne_iff_ne] at h
  refine ⟨h.1.1.1, h.1.1.2, h.1.2, h.2, ?_⟩
  intro he
  rw [he] at h
  exact absurd h.1.1.1 (by decide)

/-- A buffered (plain) character in default mode: pushed onto the buffer,
column advanced. -/
theorem step_plain (st : TState) (c : Char) (hin : st.inString = false)
    (hesc : st.escape = false) (hc : identChar c = true) :
    step st c = .ok { st with buffer := st.buffer ++ [c], column := st.column + 1 } := by
  obtain ⟨h1, h2, h3, h4, h5⟩ := identChar_spec c hc
  simp [step, hin, hesc, h1, h2, h3, h4, h5]

/-- A non-newline whitespace character in default mode with a non-empty
buffer: the buffer is flushed through the keyword match at
`column + 1 - len(buffer)`. -/
theorem step_ws_flush (st : TState) (c : Char) (hin : st.inString = false)
    (hesc : st.escape = false) (hbuf : st.buffer.isEmpty = false)
    (hw : rustIsWhitespace c = true) (hnl : c ≠ '\n') :
    step st c = .ok { st with
      tokens := st.tokens ++ [flushToken st.buffer st.line (st.column + 1 - utf8Len st.buffer)],
      buffer := [], column := st.column + 1 } := by
  simp [step, hin, hesc, hbuf, hw, hnl]

/-- A non-newline whitespace character in default mode with an empty
buffer: only the column advances. -/
theorem step_ws_empty (st : TState) (c : Char) (hin : st.inString = false)
    (hesc : st.escape = false) (hbuf : st.buffer.isEmpty = true)
    (hw : rustIsWhitespace c = true) (hnl : c ≠ '\n') :
    step st c = .ok { st with column := st.column + 1 } := by
  simp [step, hin, hesc, hbuf, hw, hnl]

/-- A `,` or `.` in default mode: any buffered lexeme is flushed as an
`Identifier`, then the punctuation token itself is emitted at its own
column. -/
theorem step_punct (st : TState) (c : Char) (hin : st.inString = false)
    (hesc : st.escape = false) (hc : c = ',' ∨ c = '.') :
    step st c = .ok { st with
      tokens := st.tokens ++
        (if st.buffer.isEmpty then []
         else [Token.identifier st.buffer st.line (st.column + 1 - utf8Len st.buffer)]) ++
        [Token.punctuation c st.line (st.column + 1)],
      buffer := [], column := st.column + 1 } := by
  have hw : rustIsWhitespace c = false := by
    rcases hc with h | h <;> subst h <;> decide
  have hq : c ≠ '"' := by rcases hc with h | h <;> subst h <;> decide
  have hnl : c ≠ '\n' := by rcases hc with h | h <;> subst h <;> decide
  simp [step, hin, hesc, hw, hq, hnl, hc]

/-- An opening quote in default mode: switch to string mode (the buffer is
kept as is). -/
theorem step_quote_open (st : TState) (hin : st.inString = false)
    (hesc : st.escape = false) :
    step st '"' = .ok { st with inString := true, column := st.column + 1 } := by
  simp [step, hin, hesc, rustIsWhitespace]

/-- A verbatim character in string mode: pushed onto the buffer, position
advanced (a newline moves to the next line). -/
theorem step_string_char (st : TState) (c : Char) (hin : st.inString = true)
    (hesc : st.escape = false) (hc : stringChar c = true) :
    step st c = .ok { st with
      buffer := st.buffer ++ [c],
      line := (if c = '\n' then st.line + 1 else st.line),
      column := (if c = '\n' then 1 else st.column + 1) } := by
  simp only [stringChar, Bool.and_eq_true, bne_iff_ne] at hc
  simp [step, hin, hesc, hc.1, hc.2]

/-- A closing quote in string mode: the buffer is emitted as a
`StringLiteral` at `column + 1 - len(buffer)` and string mode ends. -/
theorem step_quote_close (st : TState) (hin : st.inString = true)
    (hesc : st.escape = false) :
    step st '"' = .ok { st with
      tokens := st.tokens ++ [Token.stringLiteral st.buffer st.line (st.column + 1 - utf8Len st.buffer)],
      buffer := [], inString := false, column := st.column + 1 } := by
  simp [step, hin, hesc]

/-- `scan` distributes over appending of inputs. -/
theorem scan_append (st : TState) (a b : Str) :
    scan st (a ++ b) =
      match scan st a with
      | .ok st' => scan st' b
      | .error e => .error e := by
  induction a generalizing st with
  | nil => simp [scan]
  | cons c cs ih =>
    simp only [List.cons_append, scan]
    cases hs : step st c with
    | ok st' => exact ih st'
    | error e => rfl

/-- Scanning a run of plain characters in default mode accumulates them in
the buffer and advances the column by one per character. -/
theorem scan_word :
    ∀ (w : Str) (st : TState), st.inString = false → st.escape = false →
      (∀ c ∈ w, identChar c = true) →
      scan st w = .ok { st with buffer := st.buffer ++ w, column := st.column + w.length } := by
  intro w
  induction w with
  | nil =>
    intro st h1 h2 h3
    simp [scan]
  | cons c cs ih =>
    intro st h1 h2 h3
    simp only [scan]
    rw [step_plain st c h1 h2 (h3 c (by simp))]
    simp only []
    rw [ih { st with buffer := st.buffer ++ [c], column := st.column + 1 }
          h1 h2 (fun x hx => h3 x (by simp [hx]))]
    have hb : (st.buffer ++ [c]) ++ cs = st.buffer ++ (c :: cs) := by simp
    have hc2 : st.column + 1 + cs.length = st.column + (c :: cs).length := by
      simp only [List.length_cons]; omega
    rw [hb, hc2]

/-- Scanning a run of verbatim string characters in string mode appends
them to the buffer (at some position). -/
theorem scan_string_chars :
    ∀ (w : Str) (st : TState), st.inString = true → st.escape = false →
      (∀ c ∈ w, stringChar c = true) →
      ∃ l2 c2, scan st w = .ok { st with buffer := st.buffer ++ w, line := l2, column := c2 } := by
  intro w
  induction w with
  | nil =>
    intro st h1 h2 h3
    exact ⟨st.line, st.column, by simp [scan]⟩
  | cons c cs ih =>
    intro st h1 h2 h3
    obtain ⟨l2, c2, hrec⟩ :=
      ih { st with buffer := st.buffer ++ [c],
                   line := (if c = '\n' then st.line + 1 else st.line),
                   column := (if c = '\n' then 1 else st.column + 1) }
        h1 h2 (fun x hx => h3 x (by simp [hx]))
    refine ⟨l2, c2, ?_⟩
    simp only [scan]
    rw [step_string_char st c h1 h2 (h3 c (by simp))]
    simp only []
    rw [hrec]
    have hb : (st.buffer ++ [c]) ++ cs = st.buffer ++ (c :: cs) := by simp
    rw [hb]

/-- The position-independent value of a token (parsing never inspects the
line/column payload, so round-trip statements are phrased on values). -/
inductive TokenV
  | keywordV (k : Keyword)
  | identifierV (s : Str)
  | punctuationV (c : Char)
  | stringLiteralV (s : Str)
deriving DecidableEq, Repr

/-- Forget the position payload of a token. -/
def tokenVal : Token → TokenV
  | .keyword k _ _ => .keywordV k
  | .identifier s _ _ => .identifierV s
  | .punctuation c _ _ => .punctuationV c
  | .stringLiteral s _ _ => .stringLiteralV s

/-- The value of the token the keyword match produces for a buffer. -/
def flushV (b : Str) : TokenV := tokenVal (flushToken b 0 0)

theorem tokenVal_flushToken (b : Str) (line column : Nat) :
    tokenVal (flushToken b line column) = flushV b := by
  unfold flushV flushToken
  split_ifs <;> rfl

/-- Default-mode scanner state between lexemes: not inside a string, no
pending escape, empty buffer. -/
def DState (st : TState) : Prop :=
  st.inString = false ∧ st.escape = false ∧ st.buffer = []

theorem initState_DState : DState initState := ⟨rfl, rfl, rfl⟩

/-- In a between-lexemes state, `finalize` succeeds with the accumulated
tokens. -/
theorem finalize_DState (st : TState) (hD : DState st) : finalize st = .ok st.tokens := by
  obtain ⟨hin, hesc, hbuf⟩ := hD
  simp [finalize, hesc, hbuf]

/-- Fragment: a plain word followed by a space emits its keyword-match
token and returns to a between-lexemes state. -/
theorem frag_word_space (st : TState) (hD : DState st) (w : Str)
    (hw : ∀ c ∈ w, identChar c = true) (hne : w ≠ []) :
    ∃ st', scan st (w ++ [' ']) = .ok st' ∧ DState st' ∧
      st'.tokens.map tokenVal = st.tokens.map tokenVal ++ [flushV w] := by
  obtain ⟨hin, hesc, hbuf⟩ := hD
  have hwne : w.isEmpty = false := by
    cases w with
    | nil => exact absurd rfl hne
    | cons a l => rfl
  rw [scan_append, scan_word w st hin hesc hw]
  simp only []
  set st1 : TState := { st with buffer := st.buffer ++ w, column := st.column + w.length }
    with hst1
  have hbuf1 : st1.buffer.isEmpty = false := by
    show (st.buffer ++ w).isEmpty = false
    rw [hbuf, List.nil_append]
    exact hwne
  rw [show scan st1 [' '] = match step st1 ' ' with
        | .ok st2 => scan st2 []
        | .error e => .error e from rfl]
  rw [step_ws_flush st1 ' ' hin hesc hbuf1 (by decide) (by decide)]
  refine ⟨_, rfl, ⟨hin, hesc, rfl⟩, ?_⟩
  show (st.tokens ++ [flushToken st1.buffer st1.line (st1.column + 1 - utf8Len st1.buffer)]).map
      tokenVal = st.tokens.map tokenVal ++ [flushV w]
  have hb : st1.buffer = w := by
    show st.buffer ++ w = w
    rw [hbuf, List.nil_append]
  rw [hb]
  simp [tokenVal_flushToken]

/-- Fragment: a plain word followed by a comma emits an `Identifier` for
the word (bypassing keyword matching) and a `,` punctuation token. -/
theorem frag_word_comma (st : TState) (hD : DState st) (w : Str)
    (hw : ∀ c ∈ w, identChar c = true) (hne : w ≠ []) :
    ∃ st', scan st (w ++ [',']) = .ok st' ∧ DState st' ∧
      st'.tokens.map tokenVal =
        st.tokens.map tokenVal ++ [.identifierV w, .punctuationV ','] := by
  obtain ⟨hin, hesc, hbuf⟩ := hD
  have hwne : w.isEmpty = false := by
    cases w with
    | nil => exact absurd rfl hne
    | cons a l => rfl
  rw [scan_append, scan_word w st hin hesc hw]
  simp only []
  set st1 : TState := { st with buffer := st.buffer ++ w, column := st.column + w.length }
    with hst1
  have hbuf1 : st1.buffer.isEmpty = false := by
    show (st.buffer ++ w).isEmpty = false
    rw [hbuf, List.nil_append]
    exact hwne
  rw [show scan st1 [','] = match step st1 ',' with
        | .ok st2 => scan st2 []
        | .error e => .error e from rfl]
  rw [step_punct st1 ',' hin hesc (Or.inl rfl)]
  refine ⟨_, rfl, ⟨hin, hesc, rfl⟩, ?_⟩
  show (st.tokens ++
      (if st1.buffer.isEmpty then []
       else [Token.identifier st1.buffer st1.line (st1.column + 1 - utf8Len st1.buffer)]) ++
      [Token.punctuation ',' st1.line (st1.column + 1)]).map tokenVal =
    st.tokens.map tokenVal ++ [.identifierV w, .punctuationV ',']
  have hb : st1.buffer = w := by
    show st.buffer ++ w = w
    rw [hbuf, List.nil_append]
  rw [hbuf1, hb]
  simp [tokenVal]

/-- Fragment: a lone comma in a between-lexemes state emits only the `,`
punctuation token. -/
theorem frag_comma (st : TState) (hD : DState st) :
    ∃ st', scan st [','] = .ok st' ∧ DState st' ∧
      st'.tokens.map tokenVal = st.tokens.map tokenVal ++ [.punctuationV ','] := by
  obtain ⟨hin, hesc, hbuf⟩ := hD
  rw [show scan st [','] = match step st ',' with
        | .ok st2 => scan st2 []
        | .error e => .error e from rfl]
  rw [step_punct st ',' hin hesc (Or.inl rfl)]
  refine ⟨_, rfl, ⟨hin, hesc, rfl⟩, ?_⟩
  have hbe : st.buffer.isEmpty = true := by rw [hbuf]; rfl
  show (st.tokens ++
      (if st.buffer.isEmpty then []
       else [Token.identifier st.buffer st.line (st.column + 1 - utf8Len st.buffer)]) ++
      [Token.punctuation ',' st.line (st.column + 1)]).map tokenVal =
    st.tokens.map tokenVal ++ [.punctuationV ',']
  rw [hbe]
  simp [tokenVal]

/-- Fragment: a lone space in a between-lexemes state emits nothing. -/
theorem frag_space (st : TState) (hD : DState st) :
    ∃ st', scan st [' '] = .ok st' ∧ DState st' ∧
      st'.tokens.map tokenVal = st.tokens.map tokenVal := by
  obtain ⟨hin, hesc, hbuf⟩ := hD
  rw [show scan st [' '] = match step st ' ' with
        | .ok st2 => scan st2 []
        | .error e => .error e from rfl]
  rw [step_ws_empty st ' ' hin hesc (by rw [hbuf]; rfl) (by decide) (by decide)]
  exact ⟨_, rfl, ⟨hin, hesc, hbuf⟩, rfl⟩

/-- Fragment: a quoted literal in a between-lexemes state emits a single
`StringLiteral` token holding the body verbatim. -/
theorem frag_string (st : TState) (hD : DState st) (p : Str)
    (hp : ∀ c ∈ p, stringChar c = true) :
    ∃ st', scan st ('"' :: (p ++ ['"'])) = .ok st' ∧ DState st' ∧
      st'.tokens.map tokenVal = st.tokens.map tokenVal ++ [.stringLiteralV p] := by
  obtain ⟨hin, hesc, hbuf⟩ := hD
  rw [show scan st ('"' :: (p ++ ['"'])) = match step st '"' with
        | .ok st2 => scan st2 (p ++ ['"'])
        | .error e => .error e from rfl]
  rw [step_quote_open st hin hesc]
  simp only []
  set st1 : TState := { st with inString := true, column := st.column + 1 } with hst1
  rw [scan_append]
  obtain ⟨l2, c2, hs⟩ := scan_string_chars p st1 rfl hesc hp
  rw [hs]
  simp only []
  set st2 : TState := { st1 with buffer := st1.buffer ++ p, line := l2, column := c2 }
    with hst2
  rw [show scan st2 ['"'] = match step st2 '"' with
        | .ok st3 => scan st3 []
        | .error e => .error e from rfl]
  rw [step_quote_close st2 rfl hesc]
  refine ⟨_, rfl, ⟨rfl, hesc, rfl⟩, ?_⟩
  show (st.tokens ++ [Token.stringLiteral st2.buffer st2.line (st2.column + 1 - utf8Len st2.buffer)]).map
      tokenVal = st.tokens.map tokenVal ++ [.stringLiteralV p]
  simp [tokenVal, hbuf]

/-- Abstract selector, mirroring the grammar
`selector := '*' | headings | paragraphs | text "<pattern>" | <identifier>`. -/
inductive Sel
  | star
  | headings
  | paragraphs
  | textPat (p : Str)
  | ident (s : Str)
deriving DecidableEq, Repr

/-- Canonical source text of one selector. -/
def renderSel : Sel → Str
  | .star => ['*']
  | .headings => "headings".data
  | .paragraphs => "paragraphs".data
  | .textPat p => ("text".data ++ [' ']) ++ ('"' :: (p ++ ['"']))
  | .ident s => s

/-- Canonical source text of a comma-separated selector list. -/
def renderSels : List Sel → Str
  | [] => []
  | [s] => renderSel s
  | s :: rest => renderSel s ++ (',' :: ' ' :: renderSels rest)

/-- An abstract query: the selectors and the path written in the source
text. -/
structure AQuery where
  sels : List Sel
  path : Str
deriving DecidableEq, Repr

/-- The canonical source text
`SELECT <sels> FROM "<path>"` of an abstract query. -/
def render (q : AQuery) : Str :=
  ("SELECT".data ++ [' ']) ++
    ((renderSels q.sels ++ [' ']) ++
      (("FROM".data ++ [' ']) ++ ('"' :: (q.path ++ ['"']))))

/-- Well-formedness of one selector; `isLast` records whether it is the
final selector of the list (only there may `*` appear, since a `*`
immediately followed by `,` lexes as an identifier — see the C2
counterexample). -/
def wfSel (isLast : Bool) : Sel → Bool
  | .star => isLast
  | .headings => true
  | .paragraphs => true
  | .textPat p => p.all stringChar
  | .ident s =>
    !s.isEmpty && s.all identChar &&
    (toUpperStr s != "SELECT".data) && (toUpperStr s != "FROM".data) &&
    (toUpperStr s != "WHERE".data) && (toUpperStr s != "*".data) &&
    (s != "headings".data) && (s != "paragraphs".data) && (s != "text".data)

/-- Well-formedness of a selector list: non-empty, each selector
well-formed. -/
def wfSels : List Sel → Bool
  | [] => false
  | [s] => wfSel true s
  | s :: rest => wfSel false s && wfSels rest

/-- Well-formedness of an abstract query: well-formed selectors, and a
path needing no escapes. -/
def wfQuery (q : AQuery) : Bool := wfSels q.sels && q.path.all stringChar

/-- Token values the lexer produces for one rendered selector. -/
def selTokV : Sel → List TokenV
  | .star => [.keywordV .ALL]
  | .headings => [.identifierV "headings".data]
  | .paragraphs => [.identifierV "paragraphs".data]
  | .textPat p => [.identifierV "text".data, .stringLiteralV p]
  | .ident s => [.identifierV s]

/-- Token values the lexer produces for a rendered selector list. -/
def selsTokV : List Sel → List TokenV
  | [] => []
  | [s] => selTokV s
  | s :: rest => selTokV s ++ (.punctuationV ',' :: selsTokV rest)

/-- The `Element` the parser builds for each written selector. -/
def elemOf : Sel → Element
  | .star => .all
  | .headings => .headings
  | .paragraphs => .paragraphs
  | .textPat p => .text p
  | .ident s => .text s

theorem tokenVal_keyword_inv (t : Token) (k : Keyword) (h : tokenVal t = .keywordV k) :
    ∃ l c, t = .keyword k l c := by
  cases t with
  | keyword k' l c =>
    simp only [tokenVal, TokenV.keywordV.injEq] at h
    exact ⟨l, c, by rw [h]⟩
  | identifier s l c => exact absurd h (by simp [tokenVal])
  | punctuation c2 l c => exact absurd h (by simp [tokenVal])
  | stringLiteral s l c => exact absurd h (by simp [tokenVal])

theorem tokenVal_identifier_inv (t : Token) (s : Str) (h : tokenVal t = .identifierV s) :
    ∃ l c, t = .identifier s l c := by
  cases t with
  | identifier s' l c =>
    simp only [tokenVal, TokenV.identifierV.injEq] at h
    exact ⟨l, c, by rw [h]⟩
  | keyword k l c => exact absurd h (by simp [tokenVal])
  | punctuation c2 l c => exact absurd h (by simp [tokenVal])
  | stringLiteral s' l c => exact absurd h (by simp [tokenVal])

theorem tokenVal_punctuation_inv (t : Token) (ch : Char) (h : tokenVal t = .punctuationV ch) :
    ∃ l c, t = .punctuation ch l c := by
  cases t with
  | punctuation c2 l c =>
    simp only [tokenVal, TokenV.punctuationV.injEq] at h
    exact ⟨l, c, by rw [h]⟩
  | keyword k l c => exact absurd h (by simp [tokenVal])
  | identifier s l c => exact absurd h (by simp [tokenVal])
  | stringLiteral s l c => exact absurd h (by simp [tokenVal])

theorem tokenVal_stringLiteral_inv (t : Token) (s : Str) (h : tokenVal t = .stringLiteralV s) :
    ∃ l c, t = .stringLiteral s l c := by
  cases t with
  | stringLiteral s' l c =>
    simp only [tokenVal, TokenV.stringLiteralV.injEq] at h
    exact ⟨l, c, by rw [h]⟩
  | keyword k l c => exact absurd h (by simp [tokenVal])
  | identifier s' l c => exact absurd h (by simp [tokenVal])
  | punctuation c2 l c => exact absurd h (by simp [tokenVal])

theorem flushV_ident (s : Str) (h1 : toUpperStr s ≠ "SELECT".data)
    (h2 : toUpperStr s ≠ "FROM".data) (h3 : toUpperStr s ≠ "WHERE".data)
    (h4 : toUpperStr s ≠ "*".data) : flushV s = .identifierV s := by
  unfold flushV flushToken
  rw [if_neg h1, if_neg h2, if_neg h3, if_neg h4]
  rfl

/-- Components of a well-formed `ident` selector. -/
theorem wfSel_ident_spec (isLast : Bool) (s : Str) (h : wfSel isLast (.ident s) = true) :
    s ≠ [] ∧ (∀ c ∈ s, identChar c = true) ∧
    toUpperStr s ≠ "SELECT".data ∧ toUpperStr s ≠ "FROM".data ∧
    toUpperStr s ≠ "WHERE".data ∧ toUpperStr s ≠ "*".data ∧
    s ≠ "headings".data ∧ s ≠ "paragraphs".data ∧ s ≠ "text".data := by
  simp only [wfSel, Bool.and_eq_true, Bool.not_eq_true', bne_iff_ne, List.all_eq_true,
    decide_eq_true_eq] at h
  obtain ⟨⟨⟨⟨⟨⟨⟨⟨he, hall⟩, k1⟩, k2⟩, k3⟩, k4⟩, n1⟩, n2⟩, n3⟩ := h
  refine ⟨?_, hall, k1, k2, k3, k4, n1, n2, n3⟩
  intro hnil
  rw [hnil] at he
  exact absurd he (by decide)

/-- Scanning the final rendered selector followed by a space appends its
token values. -/
theorem scan_sel_last (s : Sel) (hs : wfSel true s = true) (st : TState) (hD : DState st) :
    ∃ st', scan st (renderSel s ++ [' ']) = .ok st' ∧ DState st' ∧
      st'.tokens.map tokenVal = st.tokens.map tokenVal ++ selTokV s := by
  cases s with
  | star =>
    obtain ⟨st', h1, h2, h3⟩ := frag_word_space st hD ['*'] (by decide) (by decide)
    refine ⟨st', h1, h2, ?_⟩
    rw [h3]
    rfl
  | headings =>
    obtain ⟨st', h1, h2, h3⟩ := frag_word_space st hD "headings".data (by decide) (by decide)
    refine ⟨st', h1, h2, ?_⟩
    rw [h3]
    rfl
  | paragraphs =>
    obtain ⟨st', h1, h2, h3⟩ := frag_word_space st hD "paragraphs".data (by decide) (by decide)
    refine ⟨st', h1, h2, ?_⟩
    rw [h3]
    rfl
  | textPat p =>
    have hp : ∀ c ∈ p, stringChar c = true := by
      simpa [wfSel, List.all_eq_true] using hs
    obtain ⟨st1, e1, d1, m1⟩ := frag_word_space st hD "text".data (by decide) (by decide)
    obtain ⟨st2, e2, d2, m2⟩ := frag_string st1 d1 p hp
    obtain ⟨st3, e3, d3, m3⟩ := frag_space st2 d2
    have hscan : scan st (renderSel (.textPat p) ++ [' ']) = .ok st3 := by
      show scan st ((("text".data ++ [' ']) ++ ('"' :: (p ++ ['"']))) ++ [' ']) = .ok st3
      rw [List.append_assoc, scan_append, e1]
      simp only []
      rw [scan_append, e2]
      simp only []
      exact e3
    refine ⟨st3, hscan, d3, ?_⟩
    rw [m3, m2, m1]
    simp [selTokV]
    rfl
  | ident s =>
    obtain ⟨hne, hall, k1, k2, k3, k4, _, _, _⟩ := wfSel_ident_spec true s hs
    obtain ⟨st', h1, h2, h3⟩ := frag_word_space st hD s hall hne
    refine ⟨st', h1, h2, ?_⟩
    rw [h3, flushV_ident s k1 k2 k3 k4]
    rfl

/-- Scanning a non-final rendered selector followed by a comma appends its
token values and the comma. -/
theorem scan_sel_comma (s : Sel) (hs : wfSel false s = true) (st : TState) (hD : DState st) :
    ∃ st', scan st (renderSel s ++ [',']) = .ok st' ∧ DState st' ∧
      st'.tokens.map tokenVal =
        st.tokens.map tokenVal ++ (selTokV s ++ [.punctuationV ',']) := by
  cases s with
  | star => exact absurd hs (by decide)
  | headings =>
    obtain ⟨st', h1, h2, h3⟩ := frag_word_comma st hD "headings".data (by decide) (by decide)
    exact ⟨st', h1, h2, by rw [h3]; rfl⟩
  | paragraphs =>
    obtain ⟨st', h1, h2, h3⟩ := frag_word_comma st hD "paragraphs".data (by decide) (by decide)
    exact ⟨st', h1, h2, by rw [h3]; rfl⟩
  | textPat p =>
    have hp : ∀ c ∈ p, stringChar c = true := by
      simpa [wfSel, List.all_eq_true] using hs
    obtain ⟨st1, e1, d1, m1⟩ := frag_word_space st hD "text".data (by decide) (by decide)
    obtain ⟨st2, e2, d2, m2⟩ := frag_string st1 d1 p hp
    obtain ⟨st3, e3, d3, m3⟩ := frag_comma st2 d2
    have hscan : scan st (renderSel (.textPat p) ++ [',']) = .ok st3 := by
      show scan st ((("text".data ++ [' ']) ++ ('"' :: (p ++ ['"']))) ++ [',']) = .ok st3
      rw [List.append_assoc, scan_append, e1]
      simp only []
      rw [scan_append, e2]
      simp only []
      exact e3
    refine ⟨st3, hscan, d3, ?_⟩
    rw [m3, m2, m1]
    simp [selTokV]
    rfl
  | ident s =>
    obtain ⟨hne, hall, _, _, _, _, _, _, _⟩ := wfSel_ident_spec false s hs
    obtain ⟨st', h1, h2, h3⟩ := frag_word_comma st hD s hall hne
    exact ⟨st', h1, h2, by rw [h3]; rfl⟩

/-- Scanning a rendered selector list followed by a space appends its token
values. -/
theorem scan_renderSels :
    ∀ (sels : List Sel) (st : TState), wfSels sels = true → DState st →
      ∃ st', scan st (renderSels sels ++ [' ']) = .ok st' ∧ DState st' ∧
        st'.tokens.map tokenVal = st.tokens.map tokenVal ++ selsTokV sels := by
  intro sels
  induction sels with
  | nil => intro st h _; exact absurd h (by decide)
  | cons s rest ih =>
    intro st hwf hD
    cases rest with
    | nil =>
      obtain ⟨st', h1, h2, h3⟩ := scan_sel_last s (by simpa [wfSels] using hwf) st hD
      exact ⟨st', h1, h2, by rw [h3]; rfl⟩
    | cons s2 rest2 =>
      have hwf1 : wfSel false s = true := by
        simp only [wfSels, Bool.and_eq_true] at hwf
        exact hwf.1
      have hwf2 : wfSels (s2 :: rest2) = true := by
        simp only [wfSels, Bool.and_eq_true] at hwf
        exact hwf.2
      obtain ⟨st1, e1, d1, m1⟩ := scan_sel_comma s hwf1 st hD
      obtain ⟨st2, e2, d2, m2⟩ := frag_space st1 d1
      obtain ⟨st3, e3, d3, m3⟩ := ih st2 hwf2 d2
      have hscan : scan st (renderSels (s :: s2 :: rest2) ++ [' ']) = .ok st3 := by
        show scan st ((renderSel s ++ (',' :: ' ' :: renderSels (s2 :: rest2))) ++ [' ']) =
          .ok st3
        have hli : (renderSel s ++ (',' :: ' ' :: renderSels (s2 :: rest2))) ++ [' '] =
            (renderSel s ++ [',']) ++ ([' '] ++ (renderSels (s2 :: rest2) ++ [' '])) := by
          simp
        rw [hli, scan_append, e1]
        simp only []
        rw [scan_append, e2]
        simp only []
        exact e3
      refine ⟨st3, hscan, d3, ?_⟩
      rw [m3, m2, m1]
      simp [selsTokV]

/-- Lexing a canonically rendered well-formed query yields exactly the
SELECT keyword, the selector tokens, the FROM keyword and the path
literal. -/
theorem tokenize_render (q : AQuery) (hq : wfQuery q = true) :
    ∃ Ts, tokenize (render q) = .ok Ts ∧
      Ts.map tokenVal =
        .keywordV .SELECT :: (selsTokV q.sels ++ [.keywordV .FROM, .stringLiteralV q.path]) := by
  have hq2 : wfSels q.sels = true ∧ q.path.all stringChar = true := by
    simpa [wfQuery, Bool.and_eq_true] using hq
  have hpath : ∀ c ∈ q.path, stringChar c = true := by
    simpa [List.all_eq_true] using hq2.2
  obtain ⟨st1, e1, d1, m1⟩ :=
    frag_word_space initState initState_DState "SELECT".data (by decide) (by decide)
  obtain ⟨st2, e2, d2, m2⟩ := scan_renderSels q.sels st1 hq2.1 d1
  obtain ⟨st3, e3, d3, m3⟩ := frag_word_space st2 d2 "FROM".data (by decide) (by decide)
  obtain ⟨st4, e4, d4, m4⟩ := frag_string st3 d3 q.path hpath
  have hscan : scan initState (render q) = .ok st4 := by
    show scan initState
      (("SELECT".data ++ [' ']) ++
        ((renderSels q.sels ++ [' ']) ++
          (("FROM".data ++ [' ']) ++ ('"' :: (q.path ++ ['"']))))) = .ok st4
    rw [scan_append, e1]
    simp only []
    rw [scan_append, e2]
    simp only []
    rw [scan_append, e3]
    simp only []
    exact e4
  refine ⟨st4.tokens, ?_, ?_⟩
  · unfold tokenize
    rw [hscan]
    exact finalize_DState st4 d4
  · rw [m4, m3, m2, m1]
    rw [show flushV "SELECT".data = .keywordV .SELECT from by decide,
        show flushV "FROM".data = .keywordV .FROM from by decide]
    simp [initState]

theorem parse_select_all_arm (l c : Nat) (rest : List Token) :
    parse_select (.keyword .ALL l c :: rest) = selCont .all rest := by
  rw [parse_select.eq_def]

theorem parse_select_headings_arm (l c : Nat) (rest : List Token) :
    parse_select (.identifier "headings".data l c :: rest) = selCont .headings rest := by
  conv_lhs => rw [parse_select.eq_def]
  simp

theorem parse_select_paragraphs_arm (l c : Nat) (rest : List Token) :
    parse_select (.identifier "paragraphs".data l c :: rest) = selCont .paragraphs rest := by
  conv_lhs => rw [parse_select.eq_def]
  simp

theorem parse_select_ident_arm (s : Str) (l c : Nat) (rest : List Token)
    (n1 : s ≠ "headings".data) (n2 : s ≠ "paragraphs".data) (n3 : s ≠ "text".data) :
    parse_select (.identifier s l c :: rest) = selCont (.text s) rest := by
  conv_lhs => rw [parse_select.eq_def]
  simp only []
  rw [if_neg n1, if_neg n2, if_neg n3]

theorem parse_select_text_arm (l c l2 c2 : Nat) (lit : Str) (rest : List Token) :
    parse_select (.identifier "text".data l c :: .stringLiteral lit l2 c2 :: rest) =
      selCont (.text lit) rest := by
  conv_lhs => rw [parse_select.eq_def]
  simp

theorem selCont_comma_arm (e : Element) (l c : Nat) (rest2 : List Token) :
    selCont e (.punctuation ',' l c :: rest2) =
      match parse_select rest2 with
      | .ok (es, r) => .ok (e :: es, r)
      | .perr er => .perr er
      | .panicked m => .panicked m := by
  rw [selCont.eq_def]
  rfl

theorem selCont_break (e : Element) (t : Token) (rest : List Token)
    (h : ∀ l c, t ≠ .punctuation ',' l c) :
    selCont e (t :: rest) = .ok ([e], t :: rest) := by
  rw [selCont.eq_def]
  split
  · rename_i l c rest2 heq
    simp only [List.cons.injEq] at heq
    exact absurd heq.1 (h l c)
  · rename_i heq
    exact absurd heq (by simp)
  · rfl

theorem map_tokenVal_cons (Ts : List Token) (v : TokenV) (vs : List TokenV)
    (h : Ts.map tokenVal = v :: vs) :
    ∃ t Ts', Ts = t :: Ts' ∧ tokenVal t = v ∧ Ts'.map tokenVal = vs := by
  cases Ts with
  | nil => exact absurd h (by simp)
  | cons t Ts' =>
    simp only [List.map_cons, List.cons.injEq] at h
    exact ⟨t, Ts', rfl, h.1, h.2⟩

theorem map_tokenVal_append (Ts : List Token) (vs1 vs2 : List TokenV)
    (h : Ts.map tokenVal = vs1 ++ vs2) :
    ∃ T1 T2, Ts = T1 ++ T2 ∧ T1.map tokenVal = vs1 ∧ T2.map tokenVal = vs2 := by
  induction vs1 generalizing Ts with
  | nil => exact ⟨[], Ts, rfl, rfl, h⟩
  | cons v vs ih =>
    obtain ⟨t, Ts', rfl, h1, h2⟩ := map_tokenVal_cons Ts v (vs ++ vs2) (by simpa using h)
    obtain ⟨T1, T2, rfl, h3, h4⟩ := ih Ts' h2
    exact ⟨t :: T1, T2, rfl, by simp [h1, h3], h4⟩

/-- Parsing the selector tokens of a well-formed selector list: every
selector maps to its element, in order, and the `FROM` keyword stops the
selector loop without being consumed. -/
theorem parse_select_sels :
    ∀ (sels : List Sel) (Ts tail : List Token) (l c : Nat), wfSels sels = true →
      Ts.map tokenVal = selsTokV sels →
      parse_select (Ts ++ (.keyword .FROM l c :: tail)) =
        .ok (sels.map elemOf, .keyword .FROM l c :: tail) := by
  intro sels
  induction sels with
  | nil => intro Ts tail l c h _; exact absurd h (by decide)
  | cons s rest ih =>
    intro Ts tail l c hwf hmap
    cases rest with
    | nil =>
      have hwf1 : wfSel true s = true := by simpa [wfSels] using hwf
      have hnp : ∀ a b : Nat, Token.keyword .FROM l c ≠ .punctuation ',' a b := by
        intro a b
        simp
      cases s with
      | star =>
        obtain ⟨t, Ts', rfl, hv, hm⟩ := map_tokenVal_cons Ts (.keywordV .ALL) [] hmap
        obtain rfl : Ts' = [] := by simpa using hm
        obtain ⟨l', c', rfl⟩ := tokenVal_keyword_inv t .ALL hv
        simp only [List.cons_append, List.nil_append]
        rw [parse_select_all_arm, selCont_break .all _ tail hnp]
        rfl
      | headings =>
        obtain ⟨t, Ts', rfl, hv, hm⟩ :=
          map_tokenVal_cons Ts (.identifierV "headings".data) [] hmap
        obtain rfl : Ts' = [] := by simpa using hm
        obtain ⟨l', c', rfl⟩ := tokenVal_identifier_inv t _ hv
        simp only [List.cons_append, List.nil_append]
        rw [parse_select_headings_arm, selCont_break .headings _ tail hnp]
        rfl
      | paragraphs =>
        obtain ⟨t, Ts', rfl, hv, hm⟩ :=
          map_tokenVal_cons Ts (.identifierV "paragraphs".data) [] hmap
        obtain rfl : Ts' = [] := by simpa using hm
        obtain ⟨l', c', rfl⟩ := tokenVal_identifier_inv t _ hv
        simp only [List.cons_append, List.nil_append]
        rw [parse_select_paragraphs_arm, selCont_break .paragraphs _ tail hnp]
        rfl
      | textPat p =>
        obtain ⟨t1, Ts', rfl, hv1, hm1⟩ :=
          map_tokenVal_cons Ts (.identifierV "text".data) [.stringLiteralV p] hmap
        obtain ⟨t2, Ts'', rfl, hv2, hm2⟩ :=
          map_tokenVal_cons Ts' (.stringLiteralV p) [] hm1
        obtain rfl : Ts'' = [] := by simpa using hm2
        obtain ⟨l1, c1, rfl⟩ := tokenVal_identifier_inv t1 _ hv1
        obtain ⟨l2, c2, rfl⟩ := tokenVal_stringLiteral_inv t2 _ hv2
        simp only [List.cons_append, List.nil_append]
        rw [parse_select_text_arm, selCont_break (.text p) _ tail hnp]
        rfl
      | ident s =>
        obtain ⟨_, _, _, _, _, _, n1, n2, n3⟩ := wfSel_ident_spec true s hwf1
        obtain ⟨t, Ts', rfl, hv, hm⟩ := map_tokenVal_cons Ts (.identifierV s) [] hmap
        obtain rfl : Ts' = [] := by simpa using hm
        obtain ⟨l', c', rfl⟩ := tokenVal_identifier_inv t _ hv
        simp only [List.cons_append, List.nil_append]
        rw [parse_select_ident_arm s l' c' _ n1 n2 n3, selCont_break (.text s) _ tail hnp]
        rfl
    | cons s2 rest2 =>
      have hwf1 : wfSel false s = true := by
        simp only [wfSels, Bool.and_eq_true] at hwf
        exact hwf.1
      have hwf2 : wfSels (s2 :: rest2) = true := by
        simp only [wfSels, Bool.and_eq_true] at hwf
        exact hwf.2
      obtain ⟨T1, T2, rfl, hm1, hm2⟩ :=
        map_tokenVal_append Ts (selTokV s) (.punctuationV ',' :: selsTokV (s2 :: rest2)) hmap
      obtain ⟨tp, T2', rfl, hvp, hm2'⟩ :=
        map_tokenVal_cons T2 (.punctuationV ',') (selsTokV (s2 :: rest2)) hm2
      obtain ⟨lp, cp, rfl⟩ := tokenVal_punctuation_inv tp ',' hvp
      cases s with
      | star => exact absurd hwf1 (by decide)
      | headings =>
        obtain ⟨t, T1', rfl, hv, hm1'⟩ :=
          map_tokenVal_cons T1 (.identifierV "headings".data) [] hm1
        obtain rfl : T1' = [] := by simpa using hm1'
        obtain ⟨l', c', rfl⟩ := tokenVal_identifier_inv t _ hv
        simp only [List.cons_append, List.nil_append, List.append_assoc]
        rw [parse_select_headings_arm, selCont_comma_arm,
            ih T2' tail l c hwf2 hm2']
        rfl
      | paragraphs =>
        obtain ⟨t, T1', rfl, hv, hm1'⟩ :=
          map_tokenVal_cons T1 (.identifierV "paragraphs".data) [] hm1
        obtain rfl : T1' = [] := by simpa using hm1'
        obtain ⟨l', c', rfl⟩ := tokenVal_identifier_inv t _ hv
        simp only [List.cons_append, List.nil_append, List.append_assoc]
        rw [parse_select_paragraphs_arm, selCont_comma_arm,
            ih T2' tail l c hwf2 hm2']
        rfl
      | textPat p =>
        obtain ⟨t1, T1', rfl, hv1, hm1'⟩ :=
          map_tokenVal_cons T1 (.identifierV "text".data) [.stringLiteralV p] hm1
        obtain ⟨t2, T1'', rfl, hv2, hm1''⟩ :=
          map_tokenVal_cons T1' (.stringLiteralV p) [] hm1'
        obtain rfl : T1'' = [] := by simpa using hm1''
        obtain ⟨l1, c1, rfl⟩ := tokenVal_identifier_inv t1 _ hv1
        obtain ⟨l2, c2, rfl⟩ := tokenVal_stringLiteral_inv t2 _ hv2
        simp only [List.cons_append, List.nil_append, List.append_assoc]
        rw [parse_select_text_arm, selCont_comma_arm, ih T2' tail l c hwf2 hm2']
        rfl
      | ident s =>
        obtain ⟨_, _, _, _, _, _, n1, n2, n3⟩ := wfSel_ident_spec false s hwf1
        obtain ⟨t, T1', rfl, hv, hm1'⟩ := map_tokenVal_cons T1 (.identifierV s) [] hm1
        obtain rfl : T1' = [] := by simpa using hm1'
        obtain ⟨l', c', rfl⟩ := tokenVal_identifier_inv t _ hv
        simp only [List.cons_append, List.nil_append, List.append_assoc]
        rw [parse_select_ident_arm s l' c' _ n1 n2 n3, selCont_comma_arm,
            ih T2' tail l c hwf2 hm2']
        rfl

/-- Parsing any token sequence whose values are
`SELECT <selectors> FROM <literal>` yields exactly the written elements in
order and the written path. -/
theorem parse_render (sels : List Sel) (path : Str) (Ts : List Token)
    (hwf : wfSels sels = true)
    (hmap : Ts.map tokenVal =
      .keywordV .SELECT :: (selsTokV sels ++ [.keywordV .FROM, .stringLiteralV path])) :
    parse_query Ts = .ok ⟨sels.map elemOf, path, none⟩ := by
  obtain ⟨t0, Ts', rfl, hv0, hm0⟩ := map_tokenVal_cons Ts _ _ hmap
  obtain ⟨l0, c0, rfl⟩ := tokenVal_keyword_inv t0 .SELECT hv0
  obtain ⟨T1, T2, rfl, hm1, hm2⟩ :=
    map_tokenVal_append Ts' (selsTokV sels) [.keywordV .FROM, .stringLiteralV path] hm0
  obtain ⟨tf, T2', rfl, hvf, hm2'⟩ := map_tokenVal_cons T2 _ _ hm2
  obtain ⟨lf, cf, rfl⟩ := tokenVal_keyword_inv tf .FROM hvf
  obtain ⟨tp, T2'', rfl, hvp, hm2''⟩ := map_tokenVal_cons T2' _ [] hm2'
  obtain rfl : T2'' = [] := by simpa using hm2''
  obtain ⟨lp, cp, rfl⟩ := tokenVal_stringLiteral_inv tp _ hvp
  unfold parse_query
  rw [parse_query_loop_select l0 c0 _ [] [] none (sels.map elemOf) _
        (parse_select_sels sels T1 [Token.stringLiteral path lp cp] lf cf hwf hm1),
      parse_query_loop_from lf cf [Token.stringLiteral path lp cp] _ [] none path [] rfl,
      parse_query_loop_nil]
  simp

/-- C2 (amended): for every well-formed abstract query — non-empty selector
list, identifiers that are not keywords and not `headings`/`paragraphs`/
`text`, patterns and path free of `"` and `\`, and `*` only as the final
selector (a `*` immediately followed by `,` lexes as an identifier and
parses as `Text("*")`, see the counterexample) — tokenizing its canonical
rendering `SELECT s1, ..., sn FROM "<path>"` succeeds and parsing the
resulting tokens succeeds with exactly the written selectors' elements in
source order (no reordering, no deduplication) and the written path; in
particular `SELECT headings, paragraphs FROM "x.md"` yields
`[Headings, Paragraphs]`. -/
theorem roundtrip_canonical (q : AQuery) (hq : wfQuery q = true) :
    ∃ Ts, tokenize (render q) = .ok Ts ∧
      parse_query Ts = .ok ⟨q.sels.map elemOf, q.path, none⟩ := by
  obtain ⟨Ts, h1, h2⟩ := tokenize_render q hq
  have hsels : wfSels q.sels = true := by
    simp only [wfQuery, Bool.and_eq_true] at hq
    exact hq.1
  exact ⟨Ts, h1, parse_render q.sels q.path Ts hsels h2⟩

/-- Witness for the amended C2 at the concrete query
`SELECT headings, paragraphs FROM "x.md"`. -/
theorem roundtrip_canonical_witness :
    wfQuery ⟨[Sel.headings, Sel.paragraphs], "x.md".data⟩ = true ∧
    ∃ Ts, tokenize (render ⟨[Sel.headings, Sel.paragraphs], "x.md".data⟩) = .ok Ts ∧
      parse_query Ts = .ok ⟨[Element.headings, Element.paragraphs], "x.md".data, none⟩ :=
  ⟨by decide, roundtrip_canonical ⟨[Sel.headings, Sel.paragraphs], "x.md".data⟩ (by decide)⟩

/-- C2 counterexample: `SELECT *, headings FROM "x.md"` is a syntactically
valid query string with no WHERE clause, and parsing succeeds — but the
`*` selector, flushed by the comma, lexes as `Identifier("*")` and parses
to `Text("*")` rather than `All`, so the element list is not the selectors
as written. -/
theorem star_comma_roundtrip_fails :
    tokenize "SELECT *, headings FROM \"x.md\"".data =
      .ok [Token.keyword .SELECT 1 1, Token.identifier "*".data 1 8,
           Token.punctuation ',' 1 9, Token.identifier "headings".data 1 11,
           Token.keyword .FROM 1 20, Token.stringLiteral "x.md".data 1 26] ∧
    parse_query [Token.keyword .SELECT 1 1, Token.identifier "*".data 1 8,
           Token.punctuation ',' 1 9, Token.identifier "headings".data 1 11,
           Token.keyword .FROM 1 20, Token.stringLiteral "x.md".data 1 26] =
      .ok ⟨[Element.text "*".data, Element.headings], "x.md".data, none⟩ ∧
    Element.text "*".data ≠ Element.all := by
  refine ⟨by decide, ?_, by decide⟩
  have h1 : parse_select [Token.identifier "*".data 1 8, Token.punctuation ',' 1 9,
      Token.identifier "headings".data 1 11, Token.keyword .FROM 1 20,
      Token.stringLiteral "x.md".data 1 26] =
      .ok ([Element.text "*".data, Element.headings],
        [Token.keyword .FROM 1 20, Token.stringLiteral "x.md".data 1 26]) := by
    rw [parse_select_ident_arm "*".data 1 8 _ (by decide) (by decide) (by decide),
        selCont_comma_arm, parse_select_headings_arm,
        selCont_break .headings _ _ (by intro a b; simp)]
  unfold parse_query
  rw [parse_query_loop_select 1 1 _ [] [] none _ _ h1,
      parse_query_loop_from 1 20 [Token.stringLiteral "x.md".data 1 26] _ [] none
        "x.md".data [] rfl,
      parse_query_loop_nil]
  simp

theorem utf8Len_shift :
    ∀ (w : Str) (n : Nat), w.foldl (fun acc c => acc + c.utf8Size) n = n + utf8Len w
  | [], n => by simp [utf8Len]
  | c :: t, n => by
    show t.foldl (fun acc c => acc + c.utf8Size) (n + c.utf8Size) = n + utf8Len (c :: t)
    rw [utf8Len_shift t (n + c.utf8Size)]
    show n + c.utf8Size + utf8Len t = n + utf8Len (c :: t)
    rw [show utf8Len (c :: t) =
          t.foldl (fun acc c => acc + c.utf8Size) (0 + c.utf8Size) from rfl,
        utf8Len_shift t (0 + c.utf8Size)]
    omega

/-- For ASCII characters the byte length equals the character count. -/
theorem utf8Len_ascii (w : Str) (h : ∀ c ∈ w, c.utf8Size = 1) : utf8Len w = w.length := by
  induction w with
  | nil => rfl
  | cons c t ih =>
    have hc : utf8Len (c :: t) = c.utf8Size + utf8Len t := by
      show t.foldl (fun acc c => acc + c.utf8Size) (0 + c.utf8Size) = c.utf8Size + utf8Len t
      rw [utf8Len_shift t (0 + c.utf8Size)]
      omega
    rw [hc, h c (by simp), ih (fun x hx => h x (by simp [hx]))]
    simp only [List.length_cons]
    omega

theorem isEmpty_false_of_ne (w : Str) (h : w ≠ []) : w.isEmpty = false := by
  cases w with
  | nil => exact absurd rfl h
  | cons a l => rfl

theorem scan_single (st : TState) (c : Char) : scan st [c] = step st c := by
  simp only [scan]
  cases step st c <;> rfl

/-- C8 (amended): flushed identifiers/keywords report the flush-time line
counter and `column - length(buffer)` (UTF-8 byte length), and punctuation
tokens report the column of the punctuation character itself.  For tokens
made of ASCII buffered characters on the first line, flushed by a same-line
character, this equals the 1-based line and column of the lexeme's first
character: two space-separated words report columns 1 and
`length(w1) + 2`, and a word flushed by a comma reports column 1 with the
comma at its own column `length(w1) + 1`.  (Tokens flushed by a newline or
at end of input, tokens on later lines, and string literals containing
escapes carry shifted positions — see the counterexample.) -/
theorem token_positions_first_line (w1 w2 : Str)
    (h1 : ∀ c ∈ w1, identChar c = true) (h1a : ∀ c ∈ w1, c.utf8Size = 1) (hne1 : w1 ≠ [])
    (h2 : ∀ c ∈ w2, identChar c = true) (h2a : ∀ c ∈ w2, c.utf8Size = 1) (hne2 : w2 ≠ []) :
    tokenize (w1 ++ ' ' :: (w2 ++ [' '])) =
      .ok [flushToken w1 1 1, flushToken w2 1 (w1.length + 2)] ∧
    tokenize (w1 ++ [',']) =
      .ok [Token.identifier w1 1 1, Token.punctuation ',' 1 (w1.length + 1)] ∧
    (∀ (st : TState) (c : Char), st.inString = false → st.escape = false →
      st.buffer ≠ [] → rustIsWhitespace c = true → c ≠ '\n' →
      step st c = .ok { st with
        tokens := st.tokens ++
          [flushToken st.buffer st.line (st.column + 1 - utf8Len st.buffer)],
        buffer := [], column := st.column + 1 }) := by
  refine ⟨?_, ?_, ?_⟩
  · unfold tokenize
    rw [show w1 ++ ' ' :: (w2 ++ [' ']) = w1 ++ ([' '] ++ (w2 ++ [' '])) from rfl,
        scan_append, scan_word w1 initState rfl rfl h1]
    simp only []
    rw [scan_append, scan_single,
        step_ws_flush _ ' ' rfl rfl
          (by show ([] ++ w1).isEmpty = false
              rw [List.nil_append]
              exact isEmpty_false_of_ne w1 hne1)
          (by decide) (by decide)]
    simp only []
    rw [scan_append, scan_word w2 _ rfl rfl h2]
    simp only []
    rw [scan_single,
        step_ws_flush _ ' ' rfl rfl
          (by show ([] ++ w2).isEmpty = false
              rw [List.nil_append]
              exact isEmpty_false_of_ne w2 hne2)
          (by decide) (by decide)]
    simp only []
    rw [finalize_DState _ ⟨rfl, rfl, rfl⟩]
    show Except.ok
        ((([] : List Token) ++ [flushToken ([] ++ w1) 1 (0 + w1.length + 1 - utf8Len ([] ++ w1))]) ++
          [flushToken ([] ++ w2) 1 (0 + w1.length + 1 + w2.length + 1 - utf8Len ([] ++ w2))]) =
      Except.ok [flushToken w1 1 1, flushToken w2 1 (w1.length + 2)]
    rw [List.nil_append, List.nil_append, List.nil_append,
        utf8Len_ascii w1 h1a, utf8Len_ascii w2 h2a,
        show 0 + w1.length + 1 - w1.length = 1 from by omega,
        show 0 + w1.length + 1 + w2.length + 1 - w2.length = w1.length + 2 from by omega]
    rfl
  · unfold tokenize
    rw [scan_append, scan_word w1 initState rfl rfl h1]
    simp only []
    rw [scan_single, step_punct _ ',' rfl rfl (Or.inl rfl)]
    simp only []
    rw [finalize_DState _ ⟨rfl, rfl, rfl⟩]
    show Except.ok
        ((([] : List Token) ++
          (if ([] ++ w1 : Str).isEmpty then []
           else [Token.identifier ([] ++ w1) 1 (0 + w1.length + 1 - utf8Len ([] ++ w1))]) ++
          [Token.punctuation ',' 1 (0 + w1.length + 1)])) =
      Except.ok [Token.identifier w1 1 1, Token.punctuation ',' 1 (w1.length + 1)]
    rw [List.nil_append, List.nil_append,
        isEmpty_false_of_ne w1 hne1]
    rw [utf8Len_ascii w1 h1a,
        show 0 + w1.length + 1 - w1.length = 1 from by omega,
        show 0 + w1.length + 1 = w1.length + 1 from by omega]
    rfl
  · intro st c hin hesc hbuf hws hnl
    exact step_ws_flush st c hin hesc (isEmpty_false_of_ne st.buffer hbuf) hws hnl

/-- Witness for the amended C8 at the words `ab` and `cd`. -/
theorem token_positions_first_line_witness :
    tokenize "ab cd ".data = .ok [flushToken "ab".data 1 1, flushToken "cd".data 1 4] ∧
    tokenize "ab,".data = .ok [Token.identifier "ab".data 1 1, Token.punctuation ',' 1 3] := by
  have h := token_positions_first_line "ab".data "cd".data
    (by decide) (by decide) (by decide) (by decide) (by decide) (by decide)
  exact ⟨h.1, h.2.1⟩

/-- Joint auxiliary fact: on success, neither `parse_select` nor `selCont`
consumes a `FROM` keyword — it survives into the returned suffix. -/
theorem select_no_from_main :
    ∀ n ts, ts.length ≤ n →
      ((∀ es r, parse_select ts = .ok (es, r) →
          ∀ l c, Token.keyword .FROM l c ∈ ts → Token.keyword .FROM l c ∈ r) ∧
       (∀ e es r, selCont e ts = .ok (es, r) →
          ∀ l c, Token.keyword .FROM l c ∈ ts → Token.keyword .FROM l c ∈ r)) := by
  intro n
  induction n with
  | zero =>
    intro ts hlen
    have hts : ts = [] := by
      cases ts with
      | nil => rfl
      | cons a l => simp at hlen
    subst hts
    constructor
    · intro es r h l c hm
      exact absurd hm (by simp)
    · intro e es r h l c hm
      exact absurd hm (by simp)
  | succ n ih =>
    intro ts hlen
    constructor
    · intro es r h l c hm
      rw [parse_select.eq_def] at h
      split at h
      · exact absurd hm (by simp)
      · rename_i line column rest
        have hm' : Token.keyword .FROM l c ∈ rest := by
          rcases List.mem_cons.mp hm with h1 | h1
          · exact absurd h1 (by simp)
          · exact h1
        exact (ih rest (by simp at hlen; omega)).2 _ _ _ h l c hm'
      · rename_i s line column rest
        split at h
        · have hm' : Token.keyword .FROM l c ∈ rest := by
            rcases List.mem_cons.mp hm with h1 | h1
            · exact absurd h1 (by simp)
            · exact h1
          exact (ih rest (by simp at hlen; omega)).2 _ _ _ h l c hm'
        · split at h
          · have hm' : Token.keyword .FROM l c ∈ rest := by
              rcases List.mem_cons.mp hm with h1 | h1
              · exact absurd h1 (by simp)
              · exact h1
            exact (ih rest (by simp at hlen; omega)).2 _ _ _ h l c hm'
          · split at h
            · split at h
              · rename_i lit l2 c2 rest2
                have hm' : Token.keyword .FROM l c ∈ rest2 := by
                  rcases List.mem_cons.mp hm with h1 | h1
                  · exact absurd h1 (by simp)
                  · rcases List.mem_cons.mp h1 with h2 | h2
                    · exact absurd h2 (by simp)
                    · exact h2
                exact (ih rest2 (by simp at hlen; omega)).2 _ _ _ h l c hm'
              · exact absurd h (by simp)
            · have hm' : Token.keyword .FROM l c ∈ rest := by
                rcases List.mem_cons.mp hm with h1 | h1
                · exact absurd h1 (by simp)
                · exact h1
              exact (ih rest (by simp at hlen; omega)).2 _ _ _ h l c hm'
      · exact absurd h (by simp)
    · intro e es r h l c hm
      rw [selCont.eq_def] at h
      split at h
      · rename_i line column rest2
        split at h
        · rename_i es0 r0 heq
          simp only [POut.ok.injEq, Prod.mk.injEq] at h
          have hm' : Token.keyword .FROM l c ∈ rest2 := by
            rcases List.mem_cons.mp hm with h1 | h1
            · exact absurd h1 (by simp)
            · exact h1
          rw [← h.2]
          exact (ih rest2 (by simp at hlen; omega)).1 _ _ heq l c hm'
        · exact absurd h (by simp)
        · exact absurd h (by simp)
      · exact absurd hm (by simp)
      · simp only [POut.ok.injEq, Prod.mk.injEq] at h
        rw [← h.2]
        exact hm

/-- On success, a `FROM` keyword in `parse_select`'s input survives into
the returned suffix. -/
theorem parse_select_no_from (ts : List Token) (es : List Element) (r : List Token)
    (h : parse_select ts = .ok (es, r)) (l c : Nat)
    (hm : Token.keyword .FROM l c ∈ ts) : Token.keyword .FROM l c ∈ r :=
  (select_no_from_main ts.length ts le_rfl).1 es r h l c hm

/-- Inversion: a successful `parse_file_path` consumed precisely a leading
string literal holding the returned path. -/
theorem parse_file_path_inv (ts : List Token) (p : Str) (r : List Token)
    (h : parse_file_path ts = .ok (p, r)) :
    ∃ l c, ts = .stringLiteral p l c :: r := by
  match ts, h with
  | .stringLiteral s l c :: rest, h =>
    simp only [parse_file_path, POut.ok.injEq, Prod.mk.injEq] at h
    exact ⟨l, c, by rw [h.1, h.2]⟩

theorem parse_query_loop_select_perr (line column : Nat) (rest : List Token)
    (es : List Element) (fp : Str) (cond : Option Str) (e : ParseError)
    (h : parse_select rest = .perr e) :
    parse_query_loop (.keyword .SELECT line column :: rest) es fp cond = .perr e := by
  conv_lhs => rw [parse_query_loop.eq_def]
  simp only []
  split
  · rename_i newEs2 rest2 h2
    rw [h] at h2
    exact absurd h2 (by simp)
  · rename_i e2 h2
    rw [h] at h2
    simp only [POut.perr.injEq] at h2
    rw [h2]
  · rename_i m h2
    rw [h] at h2
    exact absurd h2 (by simp)

theorem parse_query_loop_select_panicked (line column : Nat) (rest : List Token)
    (es : List Element) (fp : Str) (cond : Option Str) (m : String)
    (h : parse_select rest = .panicked m) :
    parse_query_loop (.keyword .SELECT line column :: rest) es fp cond = .panicked m := by
  conv_lhs => rw [parse_query_loop.eq_def]
  simp only []
  split
  · rename_i newEs2 rest2 h2
    rw [h] at h2
    exact absurd h2 (by simp)
  · rename_i e2 h2
    rw [h] at h2
    exact absurd h2 (by simp)
  · rename_i m2 h2
    rw [h] at h2
    simp only [POut.panicked.injEq] at h2
    rw [h2]

/-- File-path provenance: when the loop succeeds, the resulting file path
is either the incoming accumulator or the payload of some string-literal
token of the remaining input. -/
theorem parse_query_loop_filepath_src :
    ∀ (ts : List Token) (es : List Element) (fp : Str) (cond : Option Str) (q : Query),
      parse_query_loop ts es fp cond = .ok q →
      q.file_path = fp ∨ ∃ l c, Token.stringLiteral q.file_path l c ∈ ts := by
  intro ts es fp cond
  refine parse_query_loop.induct
    (motive := fun ts es fp cond => ∀ q, parse_query_loop ts es fp cond = .ok q →
      q.file_path = fp ∨ ∃ l c, Token.stringLiteral q.file_path l c ∈ ts)
    ?_ ?_ ?_ ?_ ?_ ?_ ?_ ?_ ?_ ?_ ?_ ?_ ts es fp cond
  · intro es fp cond q h
    rw [parse_query_loop_nil] at h
    simp only [POut.ok.injEq] at h
    exact Or.inl (by rw [← h])
  · intro line column rest es fp cond newEs rest' hsel ihq q h
    rw [parse_query_loop_select line column rest es fp cond newEs rest' hsel] at h
    rcases ihq q h with h1 | ⟨l, c, h2⟩
    · exact Or.inl h1
    · obtain ⟨pre, rfl⟩ := parse_select_consumes rest newEs rest' hsel
      exact Or.inr ⟨l, c, List.mem_cons_of_mem _ (List.mem_append_right pre h2)⟩
  · intro line column rest es fp cond e hsel q h
    rw [parse_query_loop_select_perr line column rest es fp cond e hsel] at h
    exact absurd h (by simp)
  · intro line column rest es fp cond m hsel q h
    rw [parse_query_loop_select_panicked line column rest es fp cond m hsel] at h
    exact absurd h (by simp)
  · intro line column rest es x cond p rest' hfp ihq q h
    rw [parse_query_loop_from line column rest es x cond p rest' hfp] at h
    obtain ⟨l2, c2, rfl⟩ := parse_file_path_inv rest p rest' hfp
    rcases ihq q h with h1 | ⟨l, c, h2⟩
    · exact Or.inr ⟨l2, c2, by rw [h1]; exact List.mem_cons_of_mem _ (List.mem_cons_self _ _)⟩
    · exact Or.inr ⟨l, c, List.mem_cons_of_mem _ (List.mem_cons_of_mem _ h2)⟩
  · intro line column rest es x cond e hfp q h
    rw [parse_query_loop_from_perr line column rest es x cond e hfp] at h
    exact absurd h (by simp)
  · intro line column rest es x cond m hfp q h
    exact absurd hfp (by cases rest with
      | nil => simp [parse_file_path]
      | cons t ts2 => cases t <;> simp [parse_file_path])
  · intro line column rest es fp x c rest' hcond q h
    exact absurd hcond (by simp [parse_condition])
  · intro line column rest es fp x e hcond q h
    exact absurd hcond (by simp [parse_condition])
  · intro line column rest es fp x m hcond q h
    rw [parse_query_loop_where] at h
    exact absurd h (by simp)
  · intro line column rest es fp cond ihq q h
    rw [parse_query_loop_all] at h
    rcases ihq q h with h1 | ⟨l, c, h2⟩
    · exact Or.inl h1
    · exact Or.inr ⟨l, c, List.mem_cons_of_mem _ h2⟩
  · intro tok tail x x1 x2 g1 g2 g3 g4 q h
    rw [parse_query_loop.eq_def] at h
    split at h
    · rename_i heq
      exact absurd heq (by simp)
    · rename_i heq
      simp only [List.cons.injEq] at heq
      exact absurd heq.1 (fun he => g1 _ _ he)
    · rename_i heq
      simp only [List.cons.injEq] at heq
      exact absurd heq.1 (fun he => g2 _ _ he)
    · rename_i heq
      simp only [List.cons.injEq] at heq
      exact absurd heq.1 (fun he => g3 _ _ he)
    · rename_i heq
      simp only [List.cons.injEq] at heq
      exact absurd heq.1 (fun he => g4 _ _ he)
    · exact absurd h (by simp)

/-- When the loop succeeds and a `FROM` keyword occurs in the remaining
input, the resulting file path is the payload of some string-literal token
of that input. -/
theorem parse_query_loop_from_forces :
    ∀ (ts : List Token) (es : List Element) (fp : Str) (cond : Option Str) (q : Query),
      parse_query_loop ts es fp cond = .ok q →
      (∃ l c, Token.keyword .FROM l c ∈ ts) →
      ∃ l c, Token.stringLiteral q.file_path l c ∈ ts := by
  intro ts es fp cond
  refine parse_query_loop.induct
    (motive := fun ts es fp cond => ∀ q, parse_query_loop ts es fp cond = .ok q →
      (∃ l c, Token.keyword .FROM l c ∈ ts) →
      ∃ l c, Token.stringLiteral q.file_path l c ∈ ts)
    ?_ ?_ ?_ ?_ ?_ ?_ ?_ ?_ ?_ ?_ ?_ ?_ ts es fp cond
  · intro es fp cond q h hm
    obtain ⟨l, c, hm⟩ := hm
    exact absurd hm (by simp)
  · intro line column rest es fp cond newEs rest' hsel ihq q h hm
    rw [parse_query_loop_select line column rest es fp cond newEs rest' hsel] at h
    obtain ⟨l, c, hm⟩ := hm
    have hm' : Token.keyword .FROM l c ∈ rest := by
      rcases List.mem_cons.mp hm with h1 | h1
      · exact absurd h1 (by simp)
      · exact h1
    have hm'' := parse_select_no_from rest newEs rest' hsel l c hm'
    obtain ⟨l2, c2, hs⟩ := ihq q h ⟨l, c, hm''⟩
    obtain ⟨pre, rfl⟩ := parse_select_consumes rest newEs rest' hsel
    exact ⟨l2, c2, List.mem_cons_of_mem _ (List.mem_append_right pre hs)⟩
  · intro line column rest es fp cond e hsel q h hm
    rw [parse_query_loop_select_perr line column rest es fp cond e hsel] at h
    exact absurd h (by simp)
  · intro line column rest es fp cond m hsel q h hm
    rw [parse_query_loop_select_panicked line column rest es fp cond m hsel] at h
    exact absurd h (by simp)
  · intro line column rest es x cond p rest' hfp ihq q h hm
    rw [parse_query_loop_from line column rest es x cond p rest' hfp] at h
    obtain ⟨l2, c2, rfl⟩ := parse_file_path_inv rest p rest' hfp
    rcases parse_query_loop_filepath_src rest' es p cond q h with h1 | ⟨l3, c3, h2⟩
    · exact ⟨l2, c2, by rw [h1]; exact List.mem_cons_of_mem _ (List.mem_cons_self _ _)⟩
    · exact ⟨l3, c3, List.mem_cons_of_mem _ (List.mem_cons_of_mem _ h2)⟩
  · intro line column rest es x cond e hfp q h hm
    rw [parse_query_loop_from_perr line column rest es x cond e hfp] at h
    exact absurd h (by simp)
  · intro line column rest es x cond m hfp q h hm
    exact absurd hfp (by cases rest with
      | nil => simp [parse_file_path]
      | cons t ts2 => cases t <;> simp [parse_file_path])
  · intro line column rest es fp x c rest' hcond q h hm
    exact absurd hcond (by simp [parse_condition])
  · intro line column rest es fp x e hcond q h hm
    exact absurd hcond (by simp [parse_condition])
  · intro line column rest es fp x m hcond q h hm
    rw [parse_query_loop_where] at h
    exact absurd h (by simp)
  · intro line column rest es fp cond ihq q h hm
    rw [parse_query_loop_all] at h
    obtain ⟨l, c, hm⟩ := hm
    have hm' : Token.keyword .FROM l c ∈ rest := by
      rcases List.mem_cons.mp hm with h1 | h1
      · exact absurd h1 (by simp)
      · exact h1
    obtain ⟨l2, c2, hs⟩ := ihq q h ⟨l, c, hm'⟩
    exact ⟨l2, c2, List.mem_cons_of_mem _ hs⟩
  · intro tok tail x x1 x2 g1 g2 g3 g4 q h hm
    rw [parse_query_loop.eq_def] at h
    split at h
    · rename_i heq
      exact absurd heq (by simp)
    · rename_i heq
      simp only [List.cons.injEq] at heq
      exact absurd heq.1 (fun he => g1 _ _ he)
    · rename_i heq
      simp only [List.cons.injEq] at heq
      exact absurd heq.1 (fun he => g2 _ _ he)
    · rename_i heq
      simp only [List.cons.injEq] at heq
      exact absurd heq.1 (fun he => g3 _ _ he)
    · rename_i heq
      simp only [List.cons.injEq] at heq
      exact absurd heq.1 (fun he => g4 _ _ he)
    · exact absurd h (by simp)

/-- C4 counterexample: the token sequence `FROM ""` contains a FROM
keyword, parses successfully, and yields an empty `file_path`. -/
theorem from_empty_literal_empty_filepath :
    parse_query [Token.keyword .FROM 1 1, Token.stringLiteral [] 1 6] =
      .ok ⟨[], [], none⟩ ∧
    Token.keyword .FROM 1 1 ∈ [Token.keyword .FROM 1 1, Token.stringLiteral [] 1 6] := by
  constructor
  · rw [parse_query,
        parse_query_loop_from 1 1 [Token.stringLiteral [] 1 6] [] [] none [] [] rfl,
        parse_query_loop_nil]
  · exact List.mem_cons_self _ _

/-- C4 (amended): for every token sequence on which `parse_query` returns
`Ok(query)`, `query.file_path` is empty only if either no FROM keyword
occurred in the sequence, or the sequence supplied an empty string literal
(the parser copies a FROM path literal verbatim, so `FROM ""` yields an
empty path despite a FROM clause being present). -/
theorem filepath_empty_only_if (tokens : List Token) (q : Query)
    (h : parse_query tokens = .ok q) (hfp : q.file_path = []) :
    (∀ l c, Token.keyword .FROM l c ∉ tokens) ∨
    (∃ l c, Token.stringLiteral [] l c ∈ tokens) := by
  by_cases hf : ∃ l c, Token.keyword .FROM l c ∈ tokens
  · right
    obtain ⟨l2, c2, hs⟩ := parse_query_loop_from_forces tokens [] [] none q h hf
    rw [hfp] at hs
    exact ⟨l2, c2, hs⟩
  · left
    push_neg at hf
    exact hf

/-- Witness for the amended C4 at the empty token sequence. -/
theorem filepath_empty_only_if_witness :
    (∀ l c, Token.keyword .FROM l c ∉ ([] : List Token)) ∨
    (∃ l c, Token.stringLiteral [] l c ∈ ([] : List Token)) :=
  filepath_empty_only_if [] ⟨[], [], none⟩
    (by rw [parse_query, parse_query_loop_nil]) rfl
